import Mathlib

/-!
Shallow embedding of the go-crdt library (package `gocrdt`): the RGA
replicated sequence (`rga.go`) and the grow-only counter (`gcounter.go`).

The Go code mutates a pointer-linked heap: the registry maps an `ID` to a
`*Node`, and the linearized view is a singly linked list threaded through
the same nodes.  We model the heap explicitly: node addresses are indices
into a `List Node`, allocation appends at the end, and pointer updates are
functional updates of that list.  Fallible steps (`Insert` with a missing
parent dereferences a nil pointer in Go; unbounded pointer chases and the
recursive orphan drain can diverge on adversarial inputs) are modelled
with `Option` and an explicit fuel parameter: `none` means the Go code
panics or fails to terminate at that fuel.
-/

/-- `ID` from `rga.go`: a Lamport timestamp paired with a replica name. -/
structure ID where
  timestamp : Int
  nodeID : String
deriving DecidableEq, Repr

/-- Character comparison by code point (Go compares string bytes;
UTF-8 byte order coincides with code-point order). -/
def charGt (a b : Char) : Bool := b.toNat < a.toNat

/-- Lexicographic `>` on character lists, mirroring Go's `>` on the
underlying strings. -/
def strGtChars : List Char → List Char → Bool
  | [], _ => false
  | _ :: _, [] => true
  | a :: as, b :: bs =>
    if charGt a b then true
    else if charGt b a then false
    else strGtChars as bs

/-- Go's `a > b` on strings: byte-lexicographic comparison. -/
def strGt (a b : String) : Bool := strGtChars a.data b.data

/-- `func (a ID) Greater(b ID) bool` from `rga.go`: higher timestamp wins,
ties broken by the lexicographically greater `NodeID`. -/
def ID.Greater (a b : ID) : Bool :=
  if a.timestamp ≠ b.timestamp then
    decide (a.timestamp > b.timestamp)
  else
    strGt a.nodeID b.nodeID

/-- `Node` from `rga.go`.  `next` is the forward link of the linearized
view, modelled as an optional heap address (`none` is Go's `nil`).
The same structure doubles as the snapshot type that `Merge` consumes;
`Merge` and `processNode` never read the `next` field of a snapshot. -/
structure Node where
  id : ID
  parentID : ID
  value : Char
  deleted : Bool
  next : Option Nat
deriving DecidableEq, Repr

/-- Association-list lookup, first match wins (models a Go map read). -/
def lookupA {α : Type} : List (ID × α) → ID → Option α
  | [], _ => none
  | (k, v) :: rest, i => if k = i then some v else lookupA rest i

/-- Association-list write (models a Go map write): update the existing
entry in place, or append a fresh one. -/
def setA {α : Type} : List (ID × α) → ID → α → List (ID × α)
  | [], k, v => [(k, v)]
  | (k', v') :: rest, k, v =>
    if k' = k then (k, v) :: rest else (k', v') :: setA rest k v

/-- Association-list key removal (models Go's `delete`). -/
def eraseA {α : Type} : List (ID × α) → ID → List (ID × α)
  | [], _ => []
  | (k', v') :: rest, k =>
    if k' = k then eraseA rest k else (k', v') :: eraseA rest k

/-- Heap read at an address. -/
def nthNode : List Node → Nat → Option Node
  | [], _ => none
  | n :: _, 0 => some n
  | _ :: rest, a + 1 => nthNode rest a

/-- Heap write at an address (no-op when out of range, which never
happens on states produced by the operations). -/
def setNode : List Node → Nat → Node → List Node
  | [], _, _ => []
  | _ :: rest, 0, m => m :: rest
  | n :: rest, a + 1, m => n :: setNode rest a m

/-- `RGA` from `rga.go`.  The mutex is dropped (every operation is a
whole, atomic state transformation); the pointer graph lives in `heap`. -/
structure RGA where
  nodeID : String
  clock : Int
  registry : List (ID × Nat)
  heap : List Node
  rootAddr : Nat
  pendingOrphans : List (ID × List Node)
deriving DecidableEq, Repr

/-- The root sentinel identifier `(0, "root")` from `NewRGA`. -/
def rootID : ID := ⟨0, "root"⟩

/-- `NewRGA` from `rga.go`: one sentinel root node, registry containing
only the root, empty orphan buffer.  Unset Go fields take zero values. -/
def NewRGA (nodeID : String) : RGA :=
  { nodeID := nodeID
    clock := 0
    registry := [(rootID, 0)]
    heap := [⟨rootID, ⟨0, ""⟩, Char.ofNat 0, false, none⟩]
    rootAddr := 0
    pendingOrphans := [] }

/-- The sibling scan of `integrate`: starting at the parent, walk the
linked view while the current node shares the new node's parent and is
not outranked by the new node.  Returns the pair `(prev, current)` at
which the loop in the Go code exits; `none` models divergence (fuel ran
out) or a dangling address (impossible on states the operations build). -/
def scanLoop (h : List Node) (pid nid : ID) :
    Nat → Nat → Option Nat → Option (Nat × Option Nat)
  | 0, _, _ => none
  | _ + 1, prev, none => some (prev, none)
  | fuel + 1, prev, some ca =>
    match nthNode h ca with
    | none => none
    | some cn =>
      if cn.parentID = pid then
        if ID.Greater nid cn.id then some (prev, some ca)
        else scanLoop h pid nid fuel ca cn.next
      else some (prev, some ca)

/-- `integrate` from `rga.go`: look the parent up in the registry (a
missing parent is Go's nil dereference, hence `none`), scan for the
insertion point among the siblings, allocate the new node, relink
`prev`, register the new node, and advance the clock to the new
timestamp when it is larger. -/
def integrate (r : RGA) (id parentID : ID) (value : Char) (deleted : Bool)
    (fuel : Nat) : Option RGA :=
  match lookupA r.registry parentID with
  | none => none
  | some pa =>
    match nthNode r.heap pa with
    | none => none
    | some pnode =>
      match scanLoop r.heap parentID id fuel pa pnode.next with
      | none => none
      | some (prev, cur) =>
        let newAddr := r.heap.length
        let h1 := r.heap ++ [⟨id, parentID, value, deleted, cur⟩]
        match nthNode h1 prev with
        | none => none
        | some pn =>
          some { r with
            heap := setNode h1 prev { pn with next := some newAddr }
            registry := setA r.registry id newAddr
            clock := if id.timestamp > r.clock then id.timestamp else r.clock }

/-- `Insert` from `rga.go`: advance the clock, build the node
`{(clock, nodeID), parentID, value}` and integrate it.  The Go code does
not check that `parentID` is registered; `integrate` then dereferences a
nil pointer, modelled by `none`. -/
def RGA.Insert (r : RGA) (val : Char) (parentID : ID) (fuel : Nat) :
    Option (ID × RGA) :=
  let newID : ID := ⟨r.clock + 1, r.nodeID⟩
  match integrate { r with clock := r.clock + 1 } newID parentID val false fuel with
  | none => none
  | some r' => some (newID, r')

/-- `Delete` from `rga.go`: set the tombstone flag of the registered
node, silently ignoring unknown identifiers. -/
def RGA.Delete (r : RGA) (i : ID) : RGA :=
  match lookupA r.registry i with
  | none => r
  | some a =>
    match nthNode r.heap a with
    | none => r
    | some n => { r with heap := setNode r.heap a { n with deleted := true } }

/-- `processNode` from `rga.go`: integrate the snapshot when its parent
is registered, then recursively drain any orphans buffered under the new
identifier and remove that buffer key; otherwise append the snapshot to
the orphan buffer under its parent identifier.  The recursion of the Go
code can diverge on adversarially forged buffers, so it is fuelled. -/
def processNode : Nat → RGA → Node → Option RGA
  | 0, _, _ => none
  | fuel + 1, r, n =>
    match lookupA r.registry n.parentID with
    | some _ =>
      match integrate r n.id n.parentID n.value n.deleted (fuel + 1) with
      | none => none
      | some r1 =>
        match lookupA r1.pendingOrphans n.id with
        | none => some r1
        | some orphans =>
          match orphans.foldl
              (fun acc child => acc.bind fun s => processNode fuel s child)
              (some r1) with
          | none => none
          | some r2 =>
            some { r2 with pendingOrphans := eraseA r2.pendingOrphans n.id }
    | none =>
      some { r with
        pendingOrphans :=
          setA r.pendingOrphans n.parentID
            (((lookupA r.pendingOrphans n.parentID).getD []) ++ [n]) }

/-- One iteration of the loop in `Merge` from `rga.go`: a snapshot whose
identifier is already registered only propagates its tombstone;
otherwise it is handed to `processNode`. -/
def mergeStep (r : RGA) (n : Node) (fuel : Nat) : Option RGA :=
  match lookupA r.registry n.id with
  | some a =>
    if n.deleted then
      match nthNode r.heap a with
      | none => none
      | some m =>
        some { r with heap := setNode r.heap a { m with deleted := true } }
    else some r
  | none => processNode fuel r n

/-- `Merge` from `rga.go`: fold `mergeStep` over the batch of remote
node snapshots, in batch order. -/
def RGA.Merge (r : RGA) (remoteNodes : List Node) (fuel : Nat) : Option RGA :=
  remoteNodes.foldl (fun acc n => acc.bind fun s => mergeStep s n fuel) (some r)

/-- The traversal loop of `Value` from `rga.go`: walk the forward links,
collecting the values of non-tombstoned nodes. -/
def visWalk (h : List Node) : Nat → Option Nat → List Char
  | 0, _ => []
  | _, none => []
  | fuel + 1, some a =>
    match nthNode h a with
    | none => []
    | some n =>
      if n.deleted then visWalk h fuel n.next
      else n.value :: visWalk h fuel n.next

/-- The characters `Value` emits: the walk starts at the node after the
root sentinel.  The fuel `r.heap.length` bounds every chain the
operations can build (the chain visits distinct addresses). -/
def RGA.valueChars (r : RGA) : List Char :=
  match nthNode r.heap r.rootAddr with
  | none => []
  | some rn => visWalk r.heap r.heap.length rn.next

/-- Go's `any` return of the `Value()` methods, restricted to the two
payload shapes the library produces. -/
inductive GoValue where
  | str (s : String)
  | intVal (i : Int)
deriving DecidableEq, Repr

/-- `Value` from `rga.go`: always `string(chars)` — a Go `string`, never
nil, empty when no visible node exists. -/
def RGA.Value (r : RGA) : GoValue := .str (String.mk r.valueChars)

/-! ### Grow-only counter (`gcounter.go`) -/

/-- Go map read with the zero default: `c.slots[id]`. -/
def glookup : List (String × Int) → String → Int
  | [], _ => 0
  | (k, v) :: rest, i => if k = i then v else glookup rest i

/-- Go map write for the slot vector. -/
def gset : List (String × Int) → String → Int → List (String × Int)
  | [], k, v => [(k, v)]
  | (k', v') :: rest, k, v =>
    if k' = k then (k, v) :: rest else (k', v') :: gset rest k v

/-- `GCounter` from `gcounter.go` (mutex dropped, slots as an
association list standing for the Go map). -/
structure GCounter where
  nodeID : String
  slots : List (String × Int)
deriving DecidableEq, Repr

/-- `NewGCounter` from `gcounter.go`. -/
def NewGCounter (nodeID : String) : GCounter := ⟨nodeID, []⟩

/-- `Increment` from `gcounter.go`: `c.slots[c.nodeID]++`. -/
def GCounter.Increment (c : GCounter) : GCounter :=
  { c with slots := gset c.slots c.nodeID (glookup c.slots c.nodeID + 1) }

/-- `Value` from `gcounter.go`: the sum over all slots. -/
def GCounter.Value (c : GCounter) : Int :=
  (c.slots.map (fun p => p.2)).sum

/-- `Merge` from `gcounter.go`: for every slot of the other counter,
keep the larger count.  The Go iteration order over the map is
immaterial because each key is handled independently; the fold fixes
the list order. -/
def gstep (acc : List (String × Int)) (kv : String × Int) :
    List (String × Int) :=
  if kv.2 > glookup acc kv.1 then gset acc kv.1 kv.2 else acc

def GCounter.Merge (c o : GCounter) : GCounter :=
  { c with slots := o.slots.foldl gstep c.slots }

example :
    (RGA.Merge (NewRGA "client") [⟨⟨11, "server"⟩, ⟨10, "server"⟩, 'C', false, none⟩] 5).map
      RGA.valueChars = some [] := by decide

example :
    ((RGA.Merge (NewRGA "client") [⟨⟨11, "server"⟩, ⟨10, "server"⟩, 'C', false, none⟩] 5).bind
      fun s => RGA.Merge s [⟨⟨10, "server"⟩, rootID, 'P', false, none⟩] 5).map
      RGA.valueChars = some ['P', 'C'] := by decide

/-! ### Concrete snapshots used by the counterexample traces -/

/-- Snapshot of a node `P` inserted after the root by replica `s`. -/
def snapP : Node := ⟨⟨1, "s"⟩, rootID, 'P', false, none⟩

/-- Snapshot of a node `B` inserted after `P` by replica `s`. -/
def snapB : Node := ⟨⟨3, "s"⟩, ⟨1, "s"⟩, 'B', false, none⟩

/-- Snapshot of a node `D` inserted after `B` by replica `s`. -/
def snapD : Node := ⟨⟨10, "s"⟩, ⟨3, "s"⟩, 'D', false, none⟩

/-- Snapshot of a node `A` inserted after `P` by replica `t`,
concurrent sibling of `B`. -/
def snapA : Node := ⟨⟨2, "t"⟩, ⟨1, "s"⟩, 'A', false, none⟩

/-- Child snapshot whose parent is `(10, "server")`. -/
def snapChild : Node := ⟨⟨11, "server"⟩, ⟨10, "server"⟩, 'C', false, none⟩

/-- Parent snapshot `(10, "server")`, inserted after the root. -/
def snapParent : Node := ⟨⟨10, "server"⟩, rootID, 'P', false, none⟩

/-- The child snapshot with its tombstone flag set. -/
def snapChildDel : Node := ⟨⟨11, "server"⟩, ⟨10, "server"⟩, 'C', true, none⟩

/-- C1: the claim asserts convergence — replicas that received the same
set of node updates report equal `Value()`.  The code violates it: the
sibling scan of `integrate` stops at the first node whose parent differs,
so when the subtree of an earlier sibling (`B` with child `D`) lies
between siblings, the arrival order of the concurrent sibling `A`
changes the final sequence.  Two fresh replicas merge the same four
snapshots (the two batches are permutations of each other) and end with
`"PBAD"` on one side and `"PBDA"` on the other. -/
theorem c1_convergence_failure :
    List.Perm [snapP, snapB, snapD, snapA] [snapP, snapB, snapA, snapD] ∧
    (RGA.Merge (NewRGA "x") [snapP, snapB, snapD, snapA] 10).map RGA.valueChars
      = some ['P', 'B', 'A', 'D'] ∧
    (RGA.Merge (NewRGA "y") [snapP, snapB, snapA, snapD] 10).map RGA.valueChars
      = some ['P', 'B', 'D', 'A'] ∧
    (['P', 'B', 'A', 'D'] : List Char) ≠ ['P', 'B', 'D', 'A'] := by
  refine ⟨by decide, by decide, by decide, by decide⟩

/-- C2: the claim asserts that redelivering the same batch any number of
times, including redelivery of a snapshot while its parent is still
missing, leaves `Value()` as if the batch was applied once.  The code
violates it: `processNode` re-buffers a duplicate orphan without checking
the registry, and the drain after the parent arrives integrates both
copies, so the child is visible twice (`"PCC"` instead of `"PC"`). -/
theorem c2_duplicate_delivery_not_idempotent :
    ((RGA.Merge (NewRGA "x") [snapChild] 10).bind fun s =>
      (RGA.Merge s [snapChild] 10).bind fun s2 =>
        RGA.Merge s2 [snapParent] 10).map RGA.valueChars
      = some ['P', 'C', 'C'] ∧
    ((RGA.Merge (NewRGA "x") [snapChild] 10).bind fun s =>
      RGA.Merge s [snapParent] 10).map RGA.valueChars
      = some ['P', 'C'] ∧
    (['P', 'C', 'C'] : List Char) ≠ ['P', 'C'] := by
  refine ⟨by decide, by decide, by decide⟩

/-- C3: the claim (and the spec's error-handling section) require
`Insert` with an unregistered `parent_id` to report a not-found failure
without crashing or mutating.  The code instead reads a nil pointer out
of the registry and panics inside `integrate` (after having already
incremented the clock); the embedding returns `none` at that input. -/
theorem c3_insert_unknown_parent_crashes :
    RGA.Insert (NewRGA "a") 'x' ⟨5, "ghost"⟩ 10 = none := by decide

/-- C5 counterexample: the claim says a merged tombstone removes the
element from the visible value.  After a duplicated orphan delivery the
replica holds two linked copies of the child; merging the tombstone
flags only the registry-mapped copy, so `'C'` is still visible (the
value stays `"PC"`, not `"P"`), even though the registry copy of
`(11, "server")` is tombstoned.  Without the duplication the same
tombstone batch does remove the element. -/
theorem c5_counterexample_tombstone_not_removing :
    (RGA.Merge (NewRGA "b") [snapChild, snapChild, snapParent, snapChildDel] 10).map
      RGA.valueChars = some ['P', 'C'] ∧
    (RGA.Merge (NewRGA "b") [snapChild, snapChild, snapParent, snapChildDel] 10).map
      (fun s => (lookupA s.registry ⟨11, "server"⟩).map
        (fun a => (nthNode s.heap a).map Node.deleted))
      = some (some (some true)) ∧
    (RGA.Merge (NewRGA "b") [snapChild, snapParent, snapChildDel] 10).map
      RGA.valueChars = some ['P'] := by
  refine ⟨by decide, by decide, by decide⟩

/-- C6 counterexample: the claim requires that an identifier created by
a local `Insert` drains any orphans buffered under it.  `Insert` never
touches the orphan buffer: after buffering a forged snapshot waiting on
parent `(1, "x")`, a local insert allocates exactly the identifier
`(1, "x")` — that key is then present in the registry and still present
in the orphan buffer. -/
theorem c6_counterexample_insert_leaves_orphan_key :
    ((RGA.Merge (NewRGA "x") [⟨⟨5, "y"⟩, ⟨1, "x"⟩, 'Q', false, none⟩] 5).bind fun s =>
      (s.Insert 'A' rootID 5).map fun pr =>
        ((lookupA pr.2.registry ⟨1, "x"⟩).isSome,
         (lookupA pr.2.pendingOrphans ⟨1, "x"⟩).isSome))
      = some (true, true) := by decide

/-- C7 counterexample: the claim says the root sentinel is never
tombstoned, including under `Delete` of `(0, "root")`.  `Delete` has no
root guard: deleting the root identifier on a fresh replica sets the
root node's tombstone flag. -/
theorem c7_counterexample_delete_root_tombstones :
    (nthNode ((NewRGA "a").Delete rootID).heap
        ((NewRGA "a").Delete rootID).rootAddr).map Node.deleted
      = some true := by decide

/-! ### Grow-only counter lemmas (C9) -/

/-- The keys of a slot vector. -/
def gkeys (l : List (String × Int)) : List String := l.map Prod.fst

lemma gkeys_cons (k : String) (v : Int) (l : List (String × Int)) :
    gkeys ((k, v) :: l) = k :: gkeys l := rfl

lemma mem_gkeys (l : List (String × Int)) (j : String) :
    j ∈ gkeys l ↔ ∃ v, (j, v) ∈ l := by
  induction l with
  | nil => simp [gkeys]
  | cons q rest ih =>
    obtain ⟨qk, qv⟩ := q
    rw [gkeys_cons]
    simp only [List.mem_cons, ih]
    constructor
    · rintro (rfl | ⟨v, hv⟩)
      · exact ⟨qv, Or.inl rfl⟩
      · exact ⟨v, Or.inr hv⟩
    · rintro ⟨v, h | hv⟩
      · exact Or.inl (congrArg Prod.fst h)
      · exact Or.inr ⟨v, hv⟩

lemma glookup_gset (l : List (String × Int)) (k : String) (v : Int) (j : String) :
    glookup (gset l k v) j = if k = j then v else glookup l j := by
  induction l with
  | nil => simp [gset, glookup]
  | cons p rest ih =>
    obtain ⟨k', v'⟩ := p
    by_cases hk : k' = k
    · subst hk
      by_cases hj : k' = j <;> simp [gset, glookup, hj]
    · by_cases hj : k' = j
      · subst hj
        have hkj : ¬ k = k' := fun h => hk h.symm
        simp [gset, hk, glookup, hkj]
      · simp [gset, hk, glookup, hj, ih]

lemma mem_gkeys_gset (l : List (String × Int)) (k : String) (v : Int) (j : String) :
    j ∈ gkeys (gset l k v) ↔ j = k ∨ j ∈ gkeys l := by
  induction l with
  | nil => simp [gset, gkeys]
  | cons p rest ih =>
    obtain ⟨k', v'⟩ := p
    by_cases hk : k' = k
    · subst hk
      rw [show gset ((k', v') :: rest) k' v = (k', v) :: rest from by simp [gset]]
      rw [gkeys_cons, gkeys_cons]
      simp only [List.mem_cons]
      tauto
    · rw [show gset ((k', v') :: rest) k v = (k', v') :: gset rest k v from by
        simp [gset, hk]]
      rw [gkeys_cons, gkeys_cons]
      simp only [List.mem_cons, ih]
      tauto

lemma nodup_gkeys_gset (l : List (String × Int)) (k : String) (v : Int)
    (h : (gkeys l).Nodup) : (gkeys (gset l k v)).Nodup := by
  induction l with
  | nil => simp [gset, gkeys]
  | cons p rest ih =>
    obtain ⟨k', v'⟩ := p
    rw [gkeys_cons, List.nodup_cons] at h
    by_cases hk : k' = k
    · subst hk
      rw [show gset ((k', v') :: rest) k' v = (k', v) :: rest from by simp [gset]]
      rw [gkeys_cons, List.nodup_cons]
      exact h
    · rw [show gset ((k', v') :: rest) k v = (k', v') :: gset rest k v from by
        simp [gset, hk]]
      rw [gkeys_cons, List.nodup_cons]
      refine ⟨fun hc => ?_, ih h.2⟩
      rcases (mem_gkeys_gset rest k v k').mp hc with h1 | h1
      · exact hk h1
      · exact h.1 h1

lemma glookup_eq_zero_of_not_mem (l : List (String × Int)) (k : String)
    (h : k ∉ gkeys l) : glookup l k = 0 := by
  induction l with
  | nil => rfl
  | cons p rest ih =>
    obtain ⟨k', v'⟩ := p
    rw [gkeys_cons, List.mem_cons, not_or] at h
    have hk : ¬ k' = k := fun hc => h.1 hc.symm
    simp [glookup, hk, ih h.2]

lemma glookup_mem (l : List (String × Int)) (k : String) :
    glookup l k = 0 ∨ (k, glookup l k) ∈ l := by
  induction l with
  | nil => exact Or.inl rfl
  | cons p rest ih =>
    obtain ⟨k', v'⟩ := p
    by_cases hk : k' = k
    · subst hk
      right
      simp [glookup]
    · rw [show glookup ((k', v') :: rest) k = glookup rest k from by simp [glookup, hk]]
      rcases ih with h | h
      · exact Or.inl h
      · exact Or.inr (List.mem_cons_of_mem _ h)

lemma glookup_nonneg (l : List (String × Int)) (k : String)
    (h : ∀ p ∈ l, 1 ≤ p.2) : 0 ≤ glookup l k := by
  rcases glookup_mem l k with h0 | hm
  · omega
  · have := h _ hm
    omega

lemma mem_gset (l : List (String × Int)) (k : String) (v : Int) (p : String × Int)
    (h : p ∈ gset l k v) : p = (k, v) ∨ p ∈ l := by
  induction l with
  | nil => simpa [gset] using h
  | cons q rest ih =>
    obtain ⟨k', v'⟩ := q
    by_cases hk : k' = k
    · subst hk
      rw [show gset ((k', v') :: rest) k' v = (k', v) :: rest from by simp [gset]] at h
      rcases List.mem_cons.mp h with h1 | h1
      · exact Or.inl h1
      · exact Or.inr (List.mem_cons_of_mem _ h1)
    · rw [show gset ((k', v') :: rest) k v = (k', v') :: gset rest k v from by
        simp [gset, hk]] at h
      rcases List.mem_cons.mp h with h1 | h1
      · exact Or.inr (h1 ▸ List.mem_cons_self _ _)
      · rcases ih h1 with h2 | h2
        · exact Or.inl h2
        · exact Or.inr (List.mem_cons_of_mem _ h2)

lemma glookup_gstep (acc : List (String × Int)) (k : String) (v : Int) (j : String) :
    glookup (gstep acc (k, v)) j =
      if k = j then max (glookup acc j) v else glookup acc j := by
  by_cases hv : v > glookup acc k
  · rw [show gstep acc (k, v) = gset acc k v from by simp [gstep, hv], glookup_gset]
    by_cases hj : k = j
    · subst hj
      rw [if_pos rfl, if_pos rfl, max_eq_right (le_of_lt hv)]
    · rw [if_neg hj, if_neg hj]
  · rw [show gstep acc (k, v) = acc from by simp [gstep, hv]]
    by_cases hj : k = j
    · subst hj
      rw [if_pos rfl, max_eq_left (not_lt.mp hv)]
    · rw [if_neg hj]

lemma glookup_gfold_nonneg : ∀ (bs acc : List (String × Int)),
    (∀ k, 0 ≤ glookup acc k) → ∀ k, 0 ≤ glookup (bs.foldl gstep acc) k := by
  intro bs
  induction bs with
  | nil => exact fun acc h => h
  | cons kv rest ih =>
    intro acc h k
    obtain ⟨k0, v0⟩ := kv
    refine ih (gstep acc (k0, v0)) (fun j => ?_) k
    rw [glookup_gstep]
    by_cases hj : k0 = j
    · rw [if_pos hj]
      exact le_max_of_le_left (h j)
    · rw [if_neg hj]
      exact h j

lemma glookup_gfold : ∀ (bs acc : List (String × Int)),
    (∀ k, 0 ≤ glookup acc k) → (gkeys bs).Nodup → ∀ k,
    glookup (bs.foldl gstep acc) k = max (glookup acc k) (glookup bs k) := by
  intro bs
  induction bs with
  | nil =>
    intro acc hnn _ k
    rw [List.foldl_nil, show glookup [] k = 0 from rfl, max_eq_left (hnn k)]
  | cons kv rest ih =>
    intro acc hnn hnd k
    obtain ⟨k0, v0⟩ := kv
    rw [gkeys_cons, List.nodup_cons] at hnd
    have hnn' : ∀ j, 0 ≤ glookup (gstep acc (k0, v0)) j := by
      intro j
      rw [glookup_gstep]
      by_cases hj : k0 = j
      · rw [if_pos hj]
        exact le_max_of_le_left (hnn j)
      · rw [if_neg hj]
        exact hnn j
    rw [List.foldl_cons, ih (gstep acc (k0, v0)) hnn' hnd.2 k, glookup_gstep]
    by_cases hk : k0 = k
    · subst hk
      rw [glookup_eq_zero_of_not_mem rest k0 hnd.1, if_pos rfl,
        show glookup ((k0, v0) :: rest) k0 = v0 from by simp [glookup]]
      exact max_eq_left (le_max_of_le_left (hnn k0))
    · rw [if_neg hk,
        show glookup ((k0, v0) :: rest) k = glookup rest k from by simp [glookup, hk]]

lemma gkeys_gstep_nodup (acc : List (String × Int)) (kv : String × Int)
    (h : (gkeys acc).Nodup) : (gkeys (gstep acc kv)).Nodup := by
  unfold gstep
  by_cases hv : kv.2 > glookup acc kv.1
  · rw [if_pos hv]
    exact nodup_gkeys_gset _ _ _ h
  · rwa [if_neg hv]

lemma gfold_nodup : ∀ (bs acc : List (String × Int)), (gkeys acc).Nodup →
    (gkeys (bs.foldl gstep acc)).Nodup := by
  intro bs
  induction bs with
  | nil => exact fun acc h => h
  | cons kv rest ih =>
    intro acc h
    exact ih _ (gkeys_gstep_nodup acc kv h)

lemma gfold_one_le : ∀ (bs acc : List (String × Int)), (∀ p ∈ acc, 1 ≤ p.2) →
    ∀ p ∈ bs.foldl gstep acc, 1 ≤ p.2 := by
  intro bs
  induction bs with
  | nil => exact fun acc h => h
  | cons kv rest ih =>
    intro acc h
    obtain ⟨k0, v0⟩ := kv
    refine ih (gstep acc (k0, v0)) (fun p hp => ?_)
    unfold gstep at hp
    by_cases hv : v0 > glookup acc k0
    · rw [if_pos hv] at hp
      rcases mem_gset _ _ _ _ hp with h1 | h1
      · have hnn := glookup_nonneg acc k0 h
        rw [h1]
        show (1 : Int) ≤ v0
        omega
      · exact h _ h1
    · rw [if_neg hv] at hp
      exact h _ hp

/-- Well-formedness of a grow-only counter, as established by every
counter reachable through the library interface: slot keys are distinct
(they are the keys of a Go map) and every stored count is at least one
(slots are created only by `Increment` or by copying a strictly larger
remote count). -/
def GWF (c : GCounter) : Prop :=
  (gkeys c.slots).Nodup ∧ ∀ p ∈ c.slots, 1 ≤ p.2

/-- The grow-only counters constructible through the library interface:
`NewGCounter`, `Increment`, and `Merge`. -/
inductive GReach : GCounter → Prop
  | new (nid : String) : GReach (NewGCounter nid)
  | inc {c : GCounter} : GReach c → GReach c.Increment
  | merge {c o : GCounter} : GReach c → GReach o → GReach (c.Merge o)

lemma gwf_increment (c : GCounter) (h : GWF c) : GWF c.Increment := by
  obtain ⟨hnd, hv⟩ := h
  constructor
  · exact nodup_gkeys_gset _ _ _ hnd
  · intro p hp
    rcases mem_gset _ _ _ _ hp with h1 | h1
    · have := glookup_nonneg c.slots c.nodeID hv
      rw [h1]
      show (1 : Int) ≤ glookup c.slots c.nodeID + 1
      omega
    · exact hv _ h1

lemma gwf_merge (c o : GCounter) (h : GWF c) : GWF (c.Merge o) := by
  obtain ⟨hnd, hv⟩ := h
  exact ⟨gfold_nodup _ _ hnd, gfold_one_le _ _ hv⟩

lemma greach_gwf (c : GCounter) (h : GReach c) : GWF c := by
  induction h with
  | new nid => exact ⟨List.nodup_nil, by simp [NewGCounter]⟩
  | inc _ ih => exact gwf_increment _ ih
  | merge _ _ ihc _ => exact gwf_merge _ _ ihc

lemma gwf_lookup_nonneg (c : GCounter) (h : GWF c) (k : String) :
    0 ≤ glookup c.slots k := glookup_nonneg _ _ h.2

/-- The pointwise description of `Merge`: the merged slot vector reads
as the pointwise maximum of the two slot vectors. -/
lemma merge_glookup (a b : GCounter) (ha : GWF a) (hb : GWF b) (k : String) :
    glookup ((a.Merge b).slots) k = max (glookup a.slots k) (glookup b.slots k) :=
  glookup_gfold b.slots a.slots (gwf_lookup_nonneg a ha) hb.1 k

/-- Removal of one explicit entry from a slot vector (the tool for the
permutation argument below). -/
def eraseEntry : List (String × Int) → (String × Int) → List (String × Int)
  | [], _ => []
  | q :: rest, p => if q = p then rest else q :: eraseEntry rest p

lemma perm_cons_eraseEntry (m : List (String × Int)) (p : String × Int)
    (h : p ∈ m) : List.Perm m (p :: eraseEntry m p) := by
  induction m with
  | nil => simp at h
  | cons q rest ih =>
    by_cases hq : q = p
    · subst hq
      rw [show eraseEntry (q :: rest) q = rest from by simp [eraseEntry]]
    · rcases List.mem_cons.mp h with h1 | h1
      · exact absurd h1.symm hq
      · rw [show eraseEntry (q :: rest) p = q :: eraseEntry rest p from by
          simp [eraseEntry, hq]]
        exact ((ih h1).cons q).trans (List.Perm.swap p q (eraseEntry rest p))

lemma sublist_eraseEntry (m : List (String × Int)) (p : String × Int) :
    (eraseEntry m p).Sublist m := by
  induction m with
  | nil => exact List.Sublist.refl []
  | cons q rest ih =>
    by_cases hq : q = p
    · rw [show eraseEntry (q :: rest) p = rest from by simp [eraseEntry, hq]]
      exact List.sublist_cons_self q rest
    · rw [show eraseEntry (q :: rest) p = q :: eraseEntry rest p from by
        simp [eraseEntry, hq]]
      exact ih.cons₂ q

lemma glookup_eraseEntry_ne (m : List (String × Int)) (pk : String) (pv : Int)
    (j : String) (h : j ≠ pk) : glookup (eraseEntry m (pk, pv)) j = glookup m j := by
  induction m with
  | nil => rfl
  | cons q rest ih =>
    obtain ⟨qk, qv⟩ := q
    by_cases hq : (qk, qv) = (pk, pv)
    · have hqk : qk = pk := congrArg Prod.fst hq
      subst hqk
      have hne : ¬ qk = j := fun hc => h hc.symm
      rw [show eraseEntry ((qk, qv) :: rest) (qk, pv) = rest from by
        simp [eraseEntry, hq]]
      have hg : glookup ((qk, qv) :: rest) j = glookup rest j := by
        simp only [glookup]
        rw [if_neg hne]
      rw [hg]
    · rw [show eraseEntry ((qk, qv) :: rest) (pk, pv) = (qk, qv) :: eraseEntry rest (pk, pv)
        from by simp [eraseEntry, hq]]
      by_cases hj : qk = j
      · simp [glookup, hj]
      · simp [glookup, hj, ih]

lemma not_mem_gkeys_eraseEntry (m : List (String × Int)) (k : String) (v : Int)
    (hnd : (gkeys m).Nodup) (hm : (k, v) ∈ m) :
    k ∉ gkeys (eraseEntry m (k, v)) := by
  induction m with
  | nil => simp at hm
  | cons q rest ih =>
    obtain ⟨qk, qv⟩ := q
    rw [gkeys_cons, List.nodup_cons] at hnd
    by_cases hq : (qk, qv) = (k, v)
    · rw [show eraseEntry ((qk, qv) :: rest) (k, v) = rest from by simp [eraseEntry, hq]]
      have hqk : qk = k := congrArg Prod.fst hq
      exact hqk ▸ hnd.1
    · have h1 : (k, v) ∈ rest := by
        rcases List.mem_cons.mp hm with h | h
        · exact absurd h.symm hq
        · exact h
      have hqk : qk ≠ k := by
        intro hc
        exact hnd.1 ((mem_gkeys rest qk).mpr ⟨v, hc ▸ h1⟩)
      rw [show eraseEntry ((qk, qv) :: rest) (k, v) = (qk, qv) :: eraseEntry rest (k, v)
        from by simp [eraseEntry, hq]]
      rw [gkeys_cons]
      simp only [List.mem_cons, not_or]
      exact ⟨fun hc => hqk hc.symm, ih hnd.2 h1⟩

/-- Two well-formed slot vectors with the same reads are permutations of
each other (hence have the same sum). -/
lemma slots_perm : ∀ (l m : List (String × Int)),
    (gkeys l).Nodup → (gkeys m).Nodup →
    (∀ p ∈ l, 1 ≤ p.2) → (∀ p ∈ m, 1 ≤ p.2) →
    (∀ k, glookup l k = glookup m k) → List.Perm l m := by
  intro l
  induction l with
  | nil =>
    intro m _ _ _ hvm hlook
    cases m with
    | nil => exact List.Perm.refl []
    | cons q rest =>
      obtain ⟨k', v'⟩ := q
      exfalso
      have hv := hvm (k', v') (List.mem_cons_self _ _)
      have h2 := hlook k'
      rw [show glookup ((k', v') :: rest) k' = v' from by simp [glookup],
        show glookup [] k' = 0 from rfl] at h2
      omega
  | cons p l' ih =>
    intro m hndl hndm hvl hvm hlook
    obtain ⟨k, v⟩ := p
    rw [gkeys_cons, List.nodup_cons] at hndl
    have hv : (1 : Int) ≤ v := hvl (k, v) (List.mem_cons_self _ _)
    have hmk : glookup m k = v := by
      rw [← hlook k, show glookup ((k, v) :: l') k = v from by simp [glookup]]
    have hmem : (k, v) ∈ m := by
      rcases glookup_mem m k with h0 | hm
      · rw [h0] at hmk
        omega
      · rwa [hmk] at hm
    have hperm : List.Perm m ((k, v) :: eraseEntry m (k, v)) :=
      perm_cons_eraseEntry m (k, v) hmem
    have herase : List.Perm l' (eraseEntry m (k, v)) := by
      refine ih (eraseEntry m (k, v))
        hndl.2
        (List.Nodup.sublist (List.Sublist.map Prod.fst (sublist_eraseEntry m (k, v))) hndm)
        (fun q hq => hvl q (List.mem_cons_of_mem _ hq))
        (fun q hq => hvm q ((sublist_eraseEntry m (k, v)).subset hq))
        ?_
      intro j
      by_cases hj : j = k
      · subst hj
        rw [glookup_eq_zero_of_not_mem l' j hndl.1,
          glookup_eq_zero_of_not_mem _ j (not_mem_gkeys_eraseEntry m j v hndm hmem)]
      · rw [glookup_eraseEntry_ne m k v j hj]
        have h3 := hlook j
        have hne : ¬ k = j := fun hc => hj hc.symm
        have hg : glookup ((k, v) :: l') j = glookup l' j := by
          simp only [glookup]
          rw [if_neg hne]
        rwa [hg] at h3
    exact (herase.cons (k, v)).trans hperm.symm

/-- Well-formed counters with the same reads have the same `Value()`. -/
lemma value_ext (c d : GCounter) (hc : GWF c) (hd : GWF d)
    (h : ∀ k, glookup c.slots k = glookup d.slots k) : c.Value = d.Value :=
  List.Perm.sum_eq (List.Perm.map _ (slots_perm c.slots d.slots hc.1 hd.1 hc.2 hd.2 h))

/-- C9: the grow-only counter merge takes the pointwise maximum of the
slot vectors (reading absent slots as zero, as the Go map does) and is
commutative, associative, and idempotent: either merge order, either
grouping, and repetition produce the same slot map (pointwise equal
reads) and hence the same `Value()` — the sum over all slots, which is
what `GCounter.Value` computes. -/
theorem c9_gcounter_semilattice (a b c : GCounter)
    (ha : GReach a) (hb : GReach b) (hc : GReach c) :
    (∀ k, glookup ((a.Merge b).slots) k = max (glookup a.slots k) (glookup b.slots k)) ∧
    (∀ k, glookup ((a.Merge b).slots) k = glookup ((b.Merge a).slots) k) ∧
    (a.Merge b).Value = (b.Merge a).Value ∧
    (∀ k, glookup (((a.Merge b).Merge c).slots) k
      = glookup ((a.Merge (b.Merge c)).slots) k) ∧
    ((a.Merge b).Merge c).Value = (a.Merge (b.Merge c)).Value ∧
    (∀ k, glookup ((a.Merge a).slots) k = glookup a.slots k) ∧
    (a.Merge a).Value = a.Value := by
  have hwa := greach_gwf a ha
  have hwb := greach_gwf b hb
  have hwc := greach_gwf c hc
  have hwab := gwf_merge a b hwa
  have hwba := gwf_merge b a hwb
  have hwbc := gwf_merge b c hwb
  have hwabc := gwf_merge (a.Merge b) c hwab
  have hwa_bc := gwf_merge a (b.Merge c) hwa
  have hwaa := gwf_merge a a hwa
  have h1 := merge_glookup a b hwa hwb
  have h2 := merge_glookup b a hwb hwa
  have hcomm : ∀ k, glookup ((a.Merge b).slots) k = glookup ((b.Merge a).slots) k := by
    intro k
    rw [h1 k, h2 k, max_comm]
  have hassoc : ∀ k, glookup (((a.Merge b).Merge c).slots) k
      = glookup ((a.Merge (b.Merge c)).slots) k := by
    intro k
    rw [merge_glookup _ c hwab hwc, h1 k, merge_glookup a _ hwa hwbc,
      merge_glookup b c hwb hwc, max_assoc]
  have hidem : ∀ k, glookup ((a.Merge a).slots) k = glookup a.slots k := by
    intro k
    rw [merge_glookup a a hwa hwa, max_self]
  exact ⟨h1, hcomm, value_ext _ _ hwab hwba hcomm, hassoc,
    value_ext _ _ hwabc hwa_bc hassoc, hidem, value_ext _ _ hwaa hwa hidem⟩

/-- C9 witness: the spec's counter scenario — `node-a` increments twice,
`node-b` once; cross-merge converges to 3 in both orders, repetition
stays at 3. -/
theorem c9_gcounter_semilattice_witness :
    ((NewGCounter "node-a").Increment.Increment.Merge
        ((NewGCounter "node-b").Increment)).Value
      = (((NewGCounter "node-b").Increment).Merge
        (NewGCounter "node-a").Increment.Increment).Value ∧
    glookup (((NewGCounter "node-a").Increment.Increment.Merge
        ((NewGCounter "node-b").Increment)).slots) "node-a"
      = max (glookup ((NewGCounter "node-a").Increment.Increment).slots "node-a")
        (glookup ((NewGCounter "node-b").Increment).slots "node-a") ∧
    ((NewGCounter "node-a").Increment.Increment.Merge
        (NewGCounter "node-a").Increment.Increment).Value
      = ((NewGCounter "node-a").Increment.Increment).Value ∧
    ((NewGCounter "node-a").Increment.Increment.Merge
        ((NewGCounter "node-b").Increment)).Value = 3 := by
  have h := c9_gcounter_semilattice ((NewGCounter "node-a").Increment.Increment)
    ((NewGCounter "node-b").Increment) (NewGCounter "c")
    (GReach.inc (GReach.inc (GReach.new "node-a")))
    (GReach.inc (GReach.new "node-b")) (GReach.new "c")
  exact ⟨h.2.2.1, h.1 "node-a", h.2.2.2.2.2.2, by decide⟩

/-! ### Association-list and heap lemmas -/

lemma lookupA_setA_self {α : Type} (l : List (ID × α)) (k : ID) (v : α) :
    lookupA (setA l k v) k = some v := by
  induction l with
  | nil => simp [setA, lookupA]
  | cons p rest ih =>
    obtain ⟨k', v'⟩ := p
    by_cases hk : k' = k
    · simp [setA, hk, lookupA]
    · simp [setA, hk, lookupA, ih]

lemma lookupA_setA_ne {α : Type} (l : List (ID × α)) (k j : ID) (v : α)
    (h : k ≠ j) : lookupA (setA l k v) j = lookupA l j := by
  induction l with
  | nil => simp [setA, lookupA, h]
  | cons p rest ih =>
    obtain ⟨k', v'⟩ := p
    by_cases hk : k' = k
    · subst hk
      simp [setA, lookupA, h, ih]
    · by_cases hj : k' = j
      · rw [show setA ((k', v') :: rest) k v = (k', v') :: setA rest k v from by
          simp [setA, hk]]
        simp [lookupA, hj]
      · simp [setA, hk, lookupA, hj, ih]

lemma lookupA_setA_isSome {α : Type} (l : List (ID × α)) (k j : ID) (v : α)
    (h : (lookupA l j).isSome) : (lookupA (setA l k v) j).isSome := by
  by_cases hk : k = j
  · subst hk
    rw [lookupA_setA_self]
    rfl
  · rwa [lookupA_setA_ne l k j v hk]

lemma lookupA_eraseA_self {α : Type} (l : List (ID × α)) (k : ID) :
    lookupA (eraseA l k) k = none := by
  induction l with
  | nil => rfl
  | cons p rest ih =>
    obtain ⟨k', v'⟩ := p
    by_cases hk : k' = k
    · simp [eraseA, hk, ih]
    · simp [eraseA, hk, lookupA, ih]

lemma lookupA_eraseA_ne {α : Type} (l : List (ID × α)) (k j : ID) (h : j ≠ k) :
    lookupA (eraseA l k) j = lookupA l j := by
  induction l with
  | nil => rfl
  | cons p rest ih =>
    obtain ⟨k', v'⟩ := p
    by_cases hk : k' = k
    · subst hk
      have : ¬ k' = j := fun hc => h hc.symm
      simp [eraseA, lookupA, this, ih]
    · by_cases hj : k' = j
      · rw [show eraseA ((k', v') :: rest) k = (k', v') :: eraseA rest k from by
          simp [eraseA, hk]]
        simp [lookupA, hj]
      · simp [eraseA, hk, lookupA, hj, ih]

lemma nthNode_lt (h : List Node) (a : Nat) (n : Node)
    (hn : nthNode h a = some n) : a < h.length := by
  induction h generalizing a with
  | nil => simp [nthNode] at hn
  | cons m rest ih =>
    cases a with
    | zero => simp
    | succ b =>
      have := ih b (by simpa [nthNode] using hn)
      simpa using Nat.succ_lt_succ this

lemma nthNode_append_lt (h : List Node) (m : Node) (a : Nat)
    (ha : a < h.length) : nthNode (h ++ [m]) a = nthNode h a := by
  induction h generalizing a with
  | nil => simp at ha
  | cons n rest ih =>
    cases a with
    | zero => rfl
    | succ b =>
      have hb : b < rest.length := by simpa using ha
      simpa [nthNode] using ih b hb

lemma nthNode_append_self (h : List Node) (m : Node) :
    nthNode (h ++ [m]) h.length = some m := by
  induction h with
  | nil => rfl
  | cons n rest ih => simpa [nthNode] using ih

lemma nthNode_setNode_self (h : List Node) (a : Nat) (m : Node)
    (ha : a < h.length) : nthNode (setNode h a m) a = some m := by
  induction h generalizing a with
  | nil => simp at ha
  | cons n rest ih =>
    cases a with
    | zero => rfl
    | succ b =>
      have hb : b < rest.length := by simpa using ha
      simpa [setNode, nthNode] using ih b hb

lemma nthNode_setNode_ne (h : List Node) (a b : Nat) (m : Node)
    (hab : a ≠ b) : nthNode (setNode h a m) b = nthNode h b := by
  induction h generalizing a b with
  | nil => rfl
  | cons n rest ih =>
    cases a with
    | zero =>
      cases b with
      | zero => exact absurd rfl hab
      | succ c => rfl
    | succ a' =>
      cases b with
      | zero => rfl
      | succ c =>
        have : a' ≠ c := fun hc => hab (by rw [hc])
        simpa [setNode, nthNode] using ih a' c this

lemma length_setNode (h : List Node) (a : Nat) (m : Node) :
    (setNode h a m).length = h.length := by
  induction h generalizing a with
  | nil => rfl
  | cons n rest ih =>
    cases a with
    | zero => rfl
    | succ b => simpa [setNode] using ih b

/-! ### The linked traversal as a chain of addresses -/

/-- `ChainFrom h o l`: starting from the optional address `o`, following
the `next` links through heap `h` visits exactly the addresses `l` and
then reaches `nil`. -/
inductive ChainFrom (h : List Node) : Option Nat → List Nat → Prop
  | nil : ChainFrom h none []
  | cons {a : Nat} {n : Node} {l : List Nat} :
      nthNode h a = some n → ChainFrom h n.next l → ChainFrom h (some a) (a :: l)

lemma chainFrom_nil_inv {h : List Node} {o : Option Nat}
    (hc : ChainFrom h o []) : o = none := by
  cases hc
  rfl

lemma chainFrom_cons_inv {h : List Node} {o : Option Nat} {a : Nat} {l : List Nat}
    (hc : ChainFrom h o (a :: l)) :
    o = some a ∧ ∃ n, nthNode h a = some n ∧ ChainFrom h n.next l := by
  cases hc with
  | cons hn hch => exact ⟨rfl, _, hn, hch⟩

lemma chainFrom_lt {h : List Node} : ∀ {l : List Nat} {o : Option Nat},
    ChainFrom h o l → ∀ a ∈ l, a < h.length := by
  intro l
  induction l with
  | nil => intro o _ a ha; simp at ha
  | cons b l' ih =>
    intro o hc a ha
    rcases chainFrom_cons_inv hc with ⟨rfl, n, hn, hch⟩
    rcases List.mem_cons.mp ha with h1 | h1
    · exact h1 ▸ nthNode_lt _ _ _ hn
    · exact ih hch a h1

lemma chainFrom_frame {h h' : List Node} : ∀ {l : List Nat} {o : Option Nat},
    ChainFrom h o l →
    (∀ a ∈ l, (nthNode h' a).map Node.next = (nthNode h a).map Node.next) →
    ChainFrom h' o l := by
  intro l
  induction l with
  | nil =>
    intro o hc _
    rw [chainFrom_nil_inv hc]
    exact ChainFrom.nil
  | cons a l' ih =>
    intro o hc hag
    rcases chainFrom_cons_inv hc with ⟨rfl, n, hn, hch⟩
    have h1 := hag a (List.mem_cons_self _ _)
    rw [hn] at h1
    rcases Option.map_eq_some'.mp h1 with ⟨n', hn', hnext⟩
    refine ChainFrom.cons hn' ?_
    rw [hnext]
    exact ih hch (fun b hb => hag b (List.mem_cons_of_mem _ hb))

lemma chainFrom_mem_decomp {h : List Node} : ∀ {L : List Nat} {o : Option Nat},
    ChainFrom h o L → ∀ a ∈ L,
    ∃ L1 L2 n, L = L1 ++ a :: L2 ∧ nthNode h a = some n ∧ ChainFrom h n.next L2 := by
  intro L
  induction L with
  | nil => intro o _ a ha; simp at ha
  | cons b l' ih =>
    intro o hc a ha
    rcases chainFrom_cons_inv hc with ⟨rfl, n, hn, hch⟩
    rcases List.mem_cons.mp ha with h1 | h1
    · subst h1
      exact ⟨[], l', n, rfl, hn, hch⟩
    · rcases ih hch a h1 with ⟨L1, L2, m, heq, hm, hch2⟩
      exact ⟨b :: L1, L2, m, by rw [heq]; rfl, hm, hch2⟩

lemma nodup_length_le (L : List Nat) (N : Nat) (h : L.Nodup)
    (hb : ∀ a ∈ L, a < N) : L.length ≤ N := by
  have h1 : L.toFinset.card = L.length := List.toFinset_card_of_nodup h
  have h2 : L.toFinset ⊆ Finset.range N := by
    intro a ha
    rw [Finset.mem_range]
    exact hb a (List.mem_toFinset.mp ha)
  have := Finset.card_le_card h2
  rw [h1, Finset.card_range] at this
  exact this

/-! ### The sibling scan against a chain -/

lemma scanLoop_sound {pid nid : ID} {h : List Node} :
    ∀ (fuel : Nat) (L : List Nat) (p : Nat) (pn : Node) (prev : Nat) (cur : Option Nat),
    nthNode h p = some pn → ChainFrom h pn.next L →
    scanLoop h pid nid fuel p pn.next = some (prev, cur) →
    ∃ L1 L2 prevN, p :: L = L1 ++ prev :: L2 ∧ nthNode h prev = some prevN ∧
      prevN.next = cur ∧ ChainFrom h cur L2 := by
  intro fuel
  induction fuel with
  | zero =>
    intro L p pn prev cur _ _ hs
    simp [scanLoop] at hs
  | succ f ih =>
    intro L p pn prev cur hp hch hs
    cases hnx : pn.next with
    | none =>
      rw [hnx] at hs
      simp [scanLoop] at hs
      obtain ⟨rfl, rfl⟩ := hs
      exact ⟨[], L, pn, rfl, hp, hnx, hnx ▸ hch⟩
    | some ca =>
      rw [hnx] at hch hs
      cases hch with
      | cons hcn hch' =>
        rename_i cn L'
        rw [show scanLoop h pid nid (f + 1) p (some ca)
            = if cn.parentID = pid then
                if ID.Greater nid cn.id then some (p, some ca)
                else scanLoop h pid nid f ca cn.next
              else some (p, some ca) from by
          simp [scanLoop, hcn]] at hs
        by_cases hpar : cn.parentID = pid
        · rw [if_pos hpar] at hs
          by_cases hgt : ID.Greater nid cn.id
          · rw [if_pos hgt] at hs
            have hs2 : p = prev ∧ some ca = cur := by
              have := Option.some.inj hs
              exact ⟨congrArg Prod.fst this, congrArg Prod.snd this⟩
            obtain ⟨rfl, rfl⟩ := hs2
            exact ⟨[], ca :: L', pn, rfl, hp, hnx, hnx ▸ ChainFrom.cons hcn hch'⟩
          · rw [if_neg hgt] at hs
            rcases ih L' ca cn prev cur hcn hch' hs with
              ⟨L1, L2, prevN, heq, hpn, hnxt, hch2⟩
            exact ⟨p :: L1, L2, prevN, by rw [List.cons_append, ← heq], hpn, hnxt, hch2⟩
        · rw [if_neg hpar] at hs
          have hs2 : p = prev ∧ some ca = cur := by
            have := Option.some.inj hs
            exact ⟨congrArg Prod.fst this, congrArg Prod.snd this⟩
          obtain ⟨rfl, rfl⟩ := hs2
          exact ⟨[], ca :: L', pn, rfl, hp, hnx, hnx ▸ ChainFrom.cons hcn hch'⟩

lemma scanLoop_complete {pid nid : ID} {h : List Node} :
    ∀ (L : List Nat) (fuel : Nat) (p : Nat) (pn : Node),
    nthNode h p = some pn → ChainFrom h pn.next L → L.length < fuel →
    ∃ res, scanLoop h pid nid fuel p pn.next = some res := by
  intro L
  induction L with
  | nil =>
    intro fuel p pn _ hch hf
    cases fuel with
    | zero => omega
    | succ f =>
      rw [chainFrom_nil_inv hch]
      exact ⟨(p, none), rfl⟩
  | cons ca L' ih =>
    intro fuel p pn hp hch hf
    cases fuel with
    | zero => omega
    | succ f =>
      rcases chainFrom_cons_inv hch with ⟨hba, cn, hcn, hch'⟩
      rw [hba]
      rw [show scanLoop h pid nid (f + 1) p (some ca)
          = if cn.parentID = pid then
              if ID.Greater nid cn.id then some (p, some ca)
              else scanLoop h pid nid f ca cn.next
            else some (p, some ca) from by
        simp [scanLoop, hcn]]
      by_cases hpar : cn.parentID = pid
      · rw [if_pos hpar]
        by_cases hgt : ID.Greater nid cn.id
        · rw [if_pos hgt]
          exact ⟨(p, some ca), rfl⟩
        · rw [if_neg hgt]
          exact ih f ca cn hcn hch' (by simpa using hf)
      · rw [if_neg hpar]
        exact ⟨(p, some ca), rfl⟩

/-! ### Splicing a freshly allocated node into the chain -/

lemma chainFrom_splice {h : List Node} {prev : Nat} {prevN nn : Node} {M2 : List Nat}
    (hprev : nthNode h prev = some prevN)
    (hcur : ChainFrom h prevN.next M2) (hnn : nn.next = prevN.next) :
    ∀ (P : List Nat) (o : Option Nat), ChainFrom h o (P ++ prev :: M2) →
    (P ++ prev :: M2).Nodup →
    ChainFrom (setNode (h ++ [nn]) prev { prevN with next := some h.length })
      o (P ++ prev :: h.length :: M2) := by
  intro P
  induction P with
  | nil =>
    intro o hc hnd
    simp only [List.nil_append] at hc hnd ⊢
    rcases chainFrom_cons_inv hc with ⟨rfl, n0, hn0, _⟩
    rw [List.nodup_cons] at hnd
    have hplt : prev < h.length := nthNode_lt _ _ _ hprev
    have hfresh : prev ≠ h.length := Nat.ne_of_lt hplt
    have hstep1 : nthNode (setNode (h ++ [nn]) prev { prevN with next := some h.length }) prev = some { prevN with next := some h.length } := by
      rw [nthNode_setNode_self]
      simpa using Nat.lt_succ_of_lt hplt
    have hstep2 : nthNode (setNode (h ++ [nn]) prev { prevN with next := some h.length }) h.length = some nn := by
      rw [nthNode_setNode_ne _ _ _ _ hfresh, nthNode_append_self]
    have htail2 : ChainFrom (setNode (h ++ [nn]) prev { prevN with next := some h.length }) nn.next M2 := by
      rw [hnn]
      refine chainFrom_frame hcur ?_
      intro a ha
      have halt : a < h.length := chainFrom_lt hcur a ha
      have hanp : a ≠ prev := by
        intro hc2
        subst hc2
        exact hnd.1 ha
      rw [nthNode_setNode_ne _ _ _ _ (fun hc2 => hanp hc2.symm),
        nthNode_append_lt _ _ _ halt]
    exact ChainFrom.cons hstep1 (ChainFrom.cons hstep2 htail2)
  | cons x P' ih =>
    intro o hc hnd
    simp only [List.cons_append] at hc hnd ⊢
    rcases chainFrom_cons_inv hc with ⟨rfl, xn, hxn, hch'⟩
    rw [List.nodup_cons] at hnd
    have hxp : x ≠ prev := by
      intro hc2
      subst hc2
      exact hnd.1 (by simp)
    have hxlt : x < h.length := nthNode_lt _ _ _ hxn
    have hstepx : nthNode (setNode (h ++ [nn]) prev { prevN with next := some h.length }) x = some xn := by
      rw [nthNode_setNode_ne _ _ _ _ (fun hc2 => hxp hc2.symm),
        nthNode_append_lt _ _ _ hxlt]
      exact hxn
    exact ChainFrom.cons hstepx (ih _ hch' hnd.2)

/-! ### List helpers for inserting into the middle of the chain -/

lemma mem_of_insert_middle {α : Type} (A C : List α) (b x a : α)
    (h : a ∈ A ++ b :: C) : a ∈ A ++ b :: x :: C := by
  simp only [List.mem_append, List.mem_cons] at h ⊢
  tauto

lemma insert_middle_mem {α : Type} (A C : List α) (b x a : α)
    (h : a ∈ A ++ b :: x :: C) : a = x ∨ a ∈ A ++ b :: C := by
  simp only [List.mem_append, List.mem_cons] at h ⊢
  tauto

lemma nodup_insert_middle {α : Type} (A C : List α) (b x : α)
    (hnd : (A ++ b :: C).Nodup) (hx : x ∉ A ++ b :: C) :
    (A ++ b :: x :: C).Nodup := by
  have h1 : A ++ b :: x :: C = (A ++ [b]) ++ x :: C := by simp
  have h2 : (A ++ [b]) ++ C = A ++ b :: C := by simp
  rw [h1, List.nodup_middle, h2, List.nodup_cons]
  exact ⟨hx, hnd⟩

/-! ### The reachable-state invariant of the sequence engine -/

/-- The payload fields of a node that integration never changes on
existing nodes (everything except the forward link). -/
def nodeCore (n : Node) : ID × ID × Char × Bool :=
  (n.id, n.parentID, n.value, n.deleted)

/-- `RootedChain r l`: the linked view of `r` starts at the root node
and visits exactly the addresses `l` after it. -/
def RootedChain (r : RGA) (l : List Nat) : Prop :=
  ∃ rn, nthNode r.heap r.rootAddr = some rn ∧ ChainFrom r.heap rn.next l

/-- The structural invariant of an RGA state, relative to its chain `l`:
the linked view is a well-formed chain of distinct addresses, every
registered address lies on it, every non-root chain node's parent
identifier is registered, and orphans are buffered under the parent
identifier they wait for. -/
structure WFon (r : RGA) (l : List Nat) : Prop where
  rooted : RootedChain r l
  nodup : (r.rootAddr :: l).Nodup
  reg : ∀ i a, lookupA r.registry i = some a → a ∈ r.rootAddr :: l
  parents : ∀ a ∈ l, ∀ n, nthNode r.heap a = some n →
    lookupA r.registry n.parentID ≠ none
  orphans : ∀ k ns, lookupA r.pendingOrphans k = some ns → ∀ s ∈ ns, s.parentID = k

/-- `WF r`: some chain witnesses the invariant. -/
def WF (r : RGA) : Prop := ∃ l, WFon r l

lemma wf_new (nid : String) : WFon (NewRGA nid) [] := by
  refine ⟨⟨⟨rootID, ⟨0, ""⟩, Char.ofNat 0, false, none⟩, rfl, ChainFrom.nil⟩, ?_, ?_, ?_, ?_⟩
  · simp
  · intro i a h
    simp only [NewRGA, lookupA] at h
    by_cases hi : rootID = i
    · rw [if_pos hi] at h
      simp at h
      simp [NewRGA, h]
    · rw [if_neg hi] at h
      cases h
  · intro a ha
    simp at ha
  · intro k ns h
    simp [NewRGA, lookupA] at h

/-! ### Characterization of a successful `integrate` -/

lemma integrate_parts {r : RGA} {id pid : ID} {v : Char} {d : Bool} {fuel : Nat}
    {r' : RGA} (hs : integrate r id pid v d fuel = some r') :
    ∃ pa pnode prev cur pn,
      lookupA r.registry pid = some pa ∧
      nthNode r.heap pa = some pnode ∧
      scanLoop r.heap pid id fuel pa pnode.next = some (prev, cur) ∧
      nthNode (r.heap ++ [⟨id, pid, v, d, cur⟩]) prev = some pn ∧
      r' = { r with
        heap := setNode (r.heap ++ [⟨id, pid, v, d, cur⟩]) prev
          { pn with next := some r.heap.length },
        registry := setA r.registry id r.heap.length,
        clock := if id.timestamp > r.clock then id.timestamp else r.clock } := by
  cases h1 : lookupA r.registry pid with
  | none => simp [integrate, h1] at hs
  | some pa =>
    cases h2 : nthNode r.heap pa with
    | none => simp [integrate, h1, h2] at hs
    | some pnode =>
      cases h3 : scanLoop r.heap pid id fuel pa pnode.next with
      | none => simp [integrate, h1, h2, h3] at hs
      | some res =>
        obtain ⟨prev, cur⟩ := res
        cases h4 : nthNode (r.heap ++ [⟨id, pid, v, d, cur⟩]) prev with
        | none => simp [integrate, h1, h2, h3, h4] at hs
        | some pn =>
          simp only [integrate, h1, h2, h3, h4] at hs
          refine ⟨pa, pnode, prev, cur, pn, rfl, h2, h3, h4, ?_⟩
          exact (Option.some.inj hs).symm

lemma lookupA_setA_ne_none {α : Type} (l : List (ID × α)) (k j : ID) (v : α)
    (h : lookupA l j ≠ none) : lookupA (setA l k v) j ≠ none := by
  by_cases hk : k = j
  · subst hk
    rw [lookupA_setA_self]
    exact Option.some_ne_none v
  · rwa [lookupA_setA_ne l k j v hk]

lemma wfon_mem_lt {r : RGA} {l : List Nat} (hw : WFon r l) :
    ∀ a ∈ r.rootAddr :: l, a < r.heap.length := by
  rcases hw.rooted with ⟨rn, hrn, hch⟩
  intro a ha
  rcases List.mem_cons.mp ha with h1 | h1
  · exact h1 ▸ nthNode_lt _ _ _ hrn
  · exact chainFrom_lt hch a h1

lemma rooted_decomp {r : RGA} {l : List Nat} (hw : WFon r l) {pa : Nat}
    (hpa : pa ∈ r.rootAddr :: l) :
    ∃ R1 R2 pnode, r.rootAddr :: l = R1 ++ pa :: R2 ∧
      nthNode r.heap pa = some pnode ∧ ChainFrom r.heap pnode.next R2 ∧
      R2.length ≤ l.length := by
  rcases hw.rooted with ⟨rn, hrn, hch⟩
  rcases List.mem_cons.mp hpa with h1 | h1
  · exact ⟨[], l, rn, by simp [h1], h1 ▸ hrn, hch, le_refl _⟩
  · rcases chainFrom_mem_decomp hch pa h1 with ⟨L1, L2, n, heq, hn, hch2⟩
    refine ⟨r.rootAddr :: L1, L2, n, by rw [heq]; rfl, hn, hch2, ?_⟩
    have hlen : l.length = L1.length + (L2.length + 1) := by rw [heq]; simp
    omega

lemma scanLoop_exit_now {h : List Node} {pid nid : ID} {fuel : Nat} {prev : Nat}
    {c : Option Nat} (hf : 1 ≤ fuel)
    (hc : c = none ∨ ∃ b bn, c = some b ∧ nthNode h b = some bn ∧ bn.parentID ≠ pid) :
    scanLoop h pid nid fuel prev c = some (prev, c) := by
  cases fuel with
  | zero => omega
  | succ f =>
    rcases hc with h1 | ⟨b, bn, h1, hbn, hpar⟩
    · rw [h1]
      rfl
    · rw [h1]
      simp [scanLoop, hbn, hpar]

/-- The effect of a successful `integrate` on a well-formed state: the
new node is allocated at address `r.heap.length`, spliced into the chain
right at the point where the sibling scan stopped, registered under its
identifier, and every existing node keeps its identifier, parent, value
and tombstone (only one `next` link changes). -/
lemma integrate_core {r : RGA} {l : List Nat} (hw : WFon r l) {id pid : ID}
    {v : Char} {d : Bool} {fuel : Nat} {r' : RGA}
    (hs : integrate r id pid v d fuel = some r') :
    ∃ (pa : Nat) (pnode : Node) (prev : Nat) (cur : Option Nat)
      (W L2 l' : List Nat),
      lookupA r.registry pid = some pa ∧
      nthNode r.heap pa = some pnode ∧
      scanLoop r.heap pid id fuel pa pnode.next = some (prev, cur) ∧
      r.rootAddr :: l = W ++ L2 ∧ W.getLast? = some prev ∧
      r.rootAddr :: l' = W ++ r.heap.length :: L2 ∧
      ChainFrom r.heap cur L2 ∧
      WFon r' l' ∧
      r'.rootAddr = r.rootAddr ∧
      r'.nodeID = r.nodeID ∧
      r'.registry = setA r.registry id r.heap.length ∧
      r'.pendingOrphans = r.pendingOrphans ∧
      r'.clock = (if id.timestamp > r.clock then id.timestamp else r.clock) ∧
      r'.heap.length = r.heap.length + 1 ∧
      nthNode r'.heap r.heap.length = some ⟨id, pid, v, d, cur⟩ ∧
      (∀ a, a < r.heap.length →
        (nthNode r'.heap a).map nodeCore = (nthNode r.heap a).map nodeCore) := by
  rcases integrate_parts hs with ⟨pa, pnode, prev, cur, pn, h1, h2, h3, h4, hr'⟩
  rcases rooted_decomp hw (hw.reg pid pa h1) with ⟨R1, R2, pnode2, heq, hpn2, hch2, _⟩
  have hpe : pnode = pnode2 := by
    rw [h2] at hpn2
    exact Option.some.inj hpn2
  subst hpe
  rcases scanLoop_sound fuel R2 pa pnode prev cur h2 hch2 h3 with
    ⟨S1, S2, prevN, heqs, hprevN, hnext, hchcur⟩
  have hplt : prev < r.heap.length := nthNode_lt _ _ _ hprevN
  have hpne : prevN = pn := by
    rw [nthNode_append_lt _ _ _ hplt, hprevN] at h4
    exact Option.some.inj h4
  rw [← hpne] at h4 hr'
  have hWsplit : r.rootAddr :: l = (R1 ++ S1) ++ prev :: S2 := by
    rw [heq, heqs]
    simp
  -- the address bound for every element of the old chain
  have hlt := wfon_mem_lt hw
  have hfresh : r.heap.length ∉ (R1 ++ S1) ++ prev :: S2 := by
    intro hc
    rw [← hWsplit] at hc
    exact absurd (hlt _ hc) (by omega)
  have hnd : ((R1 ++ S1) ++ prev :: S2).Nodup := hWsplit ▸ hw.nodup
  -- the full chain including the root, then spliced
  have hfull : ChainFrom r.heap (some r.rootAddr) ((R1 ++ S1) ++ prev :: S2) := by
    rcases hw.rooted with ⟨rn, hrn, hch⟩
    rw [← hWsplit]
    exact ChainFrom.cons hrn hch
  have hchcur' : ChainFrom r.heap prevN.next S2 := by
    rw [hnext]
    exact hchcur
  have hnn2 : (⟨id, pid, v, d, cur⟩ : Node).next = prevN.next := by
    rw [hnext]
  have hsplice := chainFrom_splice hprevN hchcur' hnn2 (R1 ++ S1) (some r.rootAddr)
    hfull hnd
  -- identify the new heap with r'.heap
  have hheap : r'.heap = setNode (r.heap ++ [⟨id, pid, v, d, cur⟩]) prev
      { prevN with next := some r.heap.length } := by
    rw [hr']
  rw [← hheap] at hsplice
  -- field equations of the new state
  have hra : r'.rootAddr = r.rootAddr := by rw [hr']
  have hnid : r'.nodeID = r.nodeID := by rw [hr']
  have hregeq : r'.registry = setA r.registry id r.heap.length := by rw [hr']
  have horph : r'.pendingOrphans = r.pendingOrphans := by rw [hr']
  have hclk : r'.clock = (if id.timestamp > r.clock then id.timestamp else r.clock) := by
    rw [hr']
  have hlen : r'.heap.length = r.heap.length + 1 := by
    rw [hheap, length_setNode]
    simp
  -- peel the root sentinel off the head of the spliced chain
  have hWold : r.rootAddr :: l = ((R1 ++ S1) ++ [prev]) ++ S2 := by
    rw [hWsplit]
    simp
  obtain ⟨W', hWhead⟩ : ∃ W', (R1 ++ S1) ++ [prev] = r.rootAddr :: W' := by
    cases hA : (R1 ++ S1) ++ [prev] with
    | nil => simp at hA
    | cons w0 W0 =>
      rw [hA] at hWold
      have hh := congrArg List.head? hWold
      simp at hh
      exact ⟨W0, by simp [hh]⟩
  have hmid : r.rootAddr :: (W' ++ r.heap.length :: S2)
      = (R1 ++ S1) ++ prev :: r.heap.length :: S2 := by
    have : ((R1 ++ S1) ++ [prev]) ++ r.heap.length :: S2
        = (R1 ++ S1) ++ prev :: r.heap.length :: S2 := by simp
    rw [← this, hWhead]
    rfl
  rw [← hmid] at hsplice
  -- frame facts about the new heap
  have hframe : ∀ a, a < r.heap.length →
      (nthNode r'.heap a).map nodeCore = (nthNode r.heap a).map nodeCore := by
    intro a halt
    by_cases hap : a = prev
    · subst hap
      rw [hheap, nthNode_setNode_self _ _ _ (by simp; omega), hprevN]
      rfl
    · rw [hheap, nthNode_setNode_ne _ _ _ _ (fun hc => hap hc.symm),
        nthNode_append_lt _ _ _ halt]
  have hwnew : nthNode r'.heap r.heap.length = some ⟨id, pid, v, d, cur⟩ := by
    rw [hheap, nthNode_setNode_ne _ _ _ _ (Nat.ne_of_lt hplt), nthNode_append_self]
  -- the new chain is well formed
  have hndnew : (r.rootAddr :: (W' ++ r.heap.length :: S2)).Nodup := by
    rw [hmid]
    exact nodup_insert_middle _ _ _ _ hnd hfresh
  have hmemnew : ∀ a, a ∈ r.rootAddr :: (W' ++ r.heap.length :: S2) →
      a = r.heap.length ∨ a ∈ r.rootAddr :: l := by
    intro a ha
    rw [hmid] at ha
    rcases insert_middle_mem _ _ _ _ _ ha with h5 | h5
    · exact Or.inl h5
    · exact Or.inr (hWsplit ▸ h5)
  have hwf : WFon r' (W' ++ r.heap.length :: S2) := by
    refine ⟨?_, ?_, ?_, ?_, ?_⟩
    · rcases chainFrom_cons_inv hsplice with ⟨_, rn', hrn', hch'⟩
      exact ⟨rn', by rw [hra]; exact hrn', hch'⟩
    · rw [hra]
      exact hndnew
    · intro i a hla
      rw [hregeq] at hla
      rw [hra]
      by_cases hi : id = i
      · subst hi
        rw [lookupA_setA_self] at hla
        have ha : a = r.heap.length := (Option.some.inj hla).symm
        rw [ha, hmid]
        simp
      · rw [lookupA_setA_ne _ _ _ _ hi] at hla
        have hold := hw.reg i a hla
        rw [hWsplit] at hold
        rw [hmid]
        exact mem_of_insert_middle _ _ _ _ _ hold
    · intro a ha n hnth
      rw [hregeq]
      by_cases haw : a = r.heap.length
      · subst haw
        rw [hwnew] at hnth
        have : n.parentID = pid := by
          rw [← Option.some.inj hnth]
        rw [this]
        exact lookupA_setA_ne_none _ _ _ _ (by rw [h1]; exact Option.some_ne_none pa)
      · have hmem : a ∈ r.rootAddr :: l := by
          rcases hmemnew a (List.mem_cons_of_mem _ ha) with h5 | h5
          · exact absurd h5 haw
          · exact h5
        have hanr : a ≠ r.rootAddr := by
          intro hc
          rw [List.nodup_cons] at hndnew
          exact hndnew.1 (hc ▸ ha)
        have hal : a ∈ l := by
          rcases List.mem_cons.mp hmem with h5 | h5
          · exact absurd h5 hanr
          · exact h5
        have halt : a < r.heap.length := hlt a hmem
        have hfr := hframe a halt
        rw [hnth] at hfr
        rcases Option.map_eq_some'.mp hfr.symm with ⟨n0, hn0, hcore⟩
        have hpareq : n0.parentID = n.parentID := by
          have := congrArg (fun t => t.2.1) hcore
          simpa [nodeCore] using this
        have hold := hw.parents a hal n0 hn0
        rw [hpareq] at hold
        exact lookupA_setA_ne_none _ _ _ _ hold
    · intro k ns hla
      rw [horph] at hla
      exact hw.orphans k ns hla
  refine ⟨pa, pnode, prev, cur, (R1 ++ S1) ++ [prev], S2, W' ++ r.heap.length :: S2,
    h1, h2, h3, hWold, List.getLast?_concat _, ?_, hchcur, hwf, hra, hnid, hregeq,
    horph, hclk, hlen, hwnew, hframe⟩
  rw [hWhead]
  rfl

lemma integrate_complete {r : RGA} {l : List Nat} (hw : WFon r l) (id pid : ID)
    (v : Char) (d : Bool) {fuel : Nat} (hf : l.length + 2 ≤ fuel)
    (hpar : lookupA r.registry pid ≠ none) :
    ∃ r', integrate r id pid v d fuel = some r' := by
  cases h1 : lookupA r.registry pid with
  | none => exact absurd h1 hpar
  | some pa =>
    rcases rooted_decomp hw (hw.reg pid pa h1) with ⟨R1, R2, pnode, heq, hpn, hch, hlen⟩
    rcases @scanLoop_complete pid id r.heap R2 fuel pa pnode hpn hch
      (by omega) with ⟨res, hres⟩
    obtain ⟨prev, cur⟩ := res
    rcases scanLoop_sound fuel R2 pa pnode prev cur hpn hch hres with
      ⟨S1, S2, prevN, heqs, hprevN, _, _⟩
    have hplt : prev < r.heap.length := nthNode_lt _ _ _ hprevN
    cases hres2 : integrate r id pid v d fuel with
    | some r2 => exact ⟨r2, rfl⟩
    | none =>
      exfalso
      simp [integrate, h1, hpn, hres, nthNode_append_lt _ _ _ hplt, hprevN] at hres2

/-- Frame of `integrate` that needs no invariant: every pre-existing
node keeps its identifier, parent, value and tombstone flag. -/
lemma integrate_frame {r : RGA} {id pid : ID} {v : Char} {d : Bool} {fuel : Nat}
    {r' : RGA} (hs : integrate r id pid v d fuel = some r') :
    ∀ a m, nthNode r.heap a = some m →
      ∃ m', nthNode r'.heap a = some m' ∧ nodeCore m' = nodeCore m := by
  rcases integrate_parts hs with ⟨pa, pnode, prev, cur, pn, h1, h2, h3, h4, hr'⟩
  intro a m hm
  have halt : a < r.heap.length := nthNode_lt _ _ _ hm
  by_cases hap : a = prev
  · subst hap
    have hpn : pn = m := by
      rw [nthNode_append_lt _ _ _ halt, hm] at h4
      exact (Option.some.inj h4).symm
    refine ⟨{ pn with next := some r.heap.length }, ?_, ?_⟩
    · rw [hr']
      exact nthNode_setNode_self _ _ _ (by simp; omega)
    · rw [hpn]
      rfl
  · refine ⟨m, ?_, rfl⟩
    rw [hr']
    show nthNode (setNode _ prev _) a = some m
    rw [nthNode_setNode_ne _ _ _ _ (fun hc => hap hc.symm),
      nthNode_append_lt _ _ _ halt]
    exact hm

/-- The other primitive state equations of a successful `integrate`. -/
lemma integrate_simple_parts {r : RGA} {id pid : ID} {v : Char} {d : Bool}
    {fuel : Nat} {r' : RGA} (hs : integrate r id pid v d fuel = some r') :
    r'.rootAddr = r.rootAddr ∧ r'.nodeID = r.nodeID ∧
    r'.registry = setA r.registry id r.heap.length ∧
    r'.pendingOrphans = r.pendingOrphans ∧
    r.heap.length ≤ r'.heap.length := by
  rcases integrate_parts hs with ⟨pa, pnode, prev, cur, pn, h1, h2, h3, h4, hr'⟩
  refine ⟨by rw [hr'], by rw [hr'], by rw [hr'], by rw [hr'], ?_⟩
  rw [hr']
  show r.heap.length ≤ (setNode _ prev _).length
  rw [length_setNode]
  simp

/-- Membership of a snapshot in the orphan buffer under a given key. -/
def orphMem (r : RGA) (k : ID) (s : Node) : Prop :=
  ∃ ns, lookupA r.pendingOrphans k = some ns ∧ s ∈ ns

/-- The drain loop of `processNode` as a standalone function. -/
def processMany (fuel : Nat) (r : RGA) (ns : List Node) : Option RGA :=
  ns.foldl (fun acc child => acc.bind fun s => processNode fuel s child) (some r)

lemma processMany_foldl (fuel : Nat) (r : RGA) (ns : List Node) :
    ns.foldl (fun acc child => acc.bind fun s => processNode fuel s child) (some r)
      = processMany fuel r ns := rfl

lemma foldl_bind_none (fuel : Nat) (ns : List Node) :
    ns.foldl (fun acc child => acc.bind fun s => processNode fuel s child) none
      = none := by
  induction ns with
  | nil => rfl
  | cons n rest ih => simpa using ih

lemma processMany_cons (fuel : Nat) (r : RGA) (n : Node) (ns : List Node) :
    processMany fuel r (n :: ns)
      = match processNode fuel r n with
        | none => none
        | some s => processMany fuel s ns := by
  cases h : processNode fuel r n with
  | none =>
    show List.foldl _ _ _ = _
    rw [List.foldl_cons]
    simp only [Option.bind, h]
    exact foldl_bind_none fuel ns
  | some s =>
    show List.foldl _ _ _ = _
    rw [List.foldl_cons]
    simp only [Option.bind, h]
    rfl

/-- Case analysis of a successful `processNode` call. -/
lemma processNode_cases {fuel : Nat} {r : RGA} {n : Node} {r' : RGA}
    (hs : processNode (fuel + 1) r n = some r') :
    (lookupA r.registry n.parentID = none ∧
      r' = { r with pendingOrphans := setA r.pendingOrphans n.parentID
                      (((lookupA r.pendingOrphans n.parentID).getD []) ++ [n]) }) ∨
    (∃ pa r1, lookupA r.registry n.parentID = some pa ∧
      integrate r n.id n.parentID n.value n.deleted (fuel + 1) = some r1 ∧
      ((lookupA r1.pendingOrphans n.id = none ∧ r' = r1) ∨
       (∃ orphans r2, lookupA r1.pendingOrphans n.id = some orphans ∧
         processMany fuel r1 orphans = some r2 ∧
         r' = { r2 with pendingOrphans := eraseA r2.pendingOrphans n.id }))) := by
  cases h1 : lookupA r.registry n.parentID with
  | none =>
    simp only [processNode, h1] at hs
    exact Or.inl ⟨rfl, (Option.some.inj hs).symm⟩
  | some pa =>
    cases h2 : integrate r n.id n.parentID n.value n.deleted (fuel + 1) with
    | none => simp [processNode, h1, h2] at hs
    | some r1 =>
      cases h3 : lookupA r1.pendingOrphans n.id with
      | none =>
        simp only [processNode, h1, h2, h3] at hs
        exact Or.inr ⟨pa, r1, rfl, rfl, Or.inl ⟨h3, (Option.some.inj hs).symm⟩⟩
      | some orphans =>
        cases h4 : processMany fuel r1 orphans with
        | none =>
          rw [← processMany_foldl] at h4
          simp [processNode, h1, h2, h3, h4] at hs
        | some r2 =>
          have h4' := h4
          rw [← processMany_foldl] at h4'
          simp only [processNode, h1, h2, h3, h4'] at hs
          exact Or.inr ⟨pa, r1, rfl, rfl,
            Or.inr ⟨orphans, r2, h3, h4, (Option.some.inj hs).symm⟩⟩

/-- Preservation of a reflexive-transitive transition relation along the
orphan drain loop, given its preservation by single `processNode` calls
at the loop's fuel. -/
lemma processMany_pres_of (P : RGA → RGA → Prop) (hrefl : ∀ r, P r r)
    (htrans : ∀ a b c, P a b → P b c → P a c) (fuel : Nat)
    (hstep : ∀ r n r', processNode fuel r n = some r' → P r r') :
    ∀ (ns : List Node) (r r' : RGA), processMany fuel r ns = some r' → P r r' := by
  intro ns
  induction ns with
  | nil =>
    intro r r' h
    have : some r = some r' := h
    exact (Option.some.inj this) ▸ hrefl r
  | cons n rest ih =>
    intro r r' h
    rw [processMany_cons] at h
    cases hpn : processNode fuel r n with
    | none => rw [hpn] at h; cases h
    | some s =>
      rw [hpn] at h
      exact htrans _ _ _ (hstep r n s hpn) (ih s r' h)

lemma processNode_basic : ∀ (fuel : Nat) (r : RGA) (n : Node) (r' : RGA),
    processNode fuel r n = some r' →
    r'.rootAddr = r.rootAddr ∧ r'.nodeID = r.nodeID ∧
    r.heap.length ≤ r'.heap.length := by
  intro fuel
  induction fuel with
  | zero => intro r n r' hs; simp [processNode] at hs
  | succ f ih =>
    intro r n r' hs
    rcases processNode_cases hs with ⟨_, hr'⟩ | ⟨pa, r1, _, hint, hrest⟩
    · rw [hr']
      exact ⟨rfl, rfl, le_refl _⟩
    · rcases integrate_simple_parts hint with ⟨hra, hnid, _, _, hlen⟩
      rcases hrest with ⟨_, hr'⟩ | ⟨orphans, r2, _, hpm, hr'⟩
      · rw [hr']
        exact ⟨hra, hnid, hlen⟩
      · have hp := processMany_pres_of
          (fun a b => b.rootAddr = a.rootAddr ∧ b.nodeID = a.nodeID ∧
            a.heap.length ≤ b.heap.length)
          (fun r => ⟨rfl, rfl, le_refl _⟩)
          (fun a b c hab hbc =>
            ⟨hbc.1.trans hab.1, hbc.2.1.trans hab.2.1, le_trans hab.2.2 hbc.2.2⟩)
          f (fun r n r' h => ih r n r' h) orphans r1 r2 hpm
        rw [hr']
        exact ⟨hp.1.trans hra, hp.2.1.trans hnid, le_trans hlen hp.2.2⟩

lemma processNode_regMono : ∀ (fuel : Nat) (r : RGA) (n : Node) (r' : RGA),
    processNode fuel r n = some r' →
    ∀ i, lookupA r.registry i ≠ none → lookupA r'.registry i ≠ none := by
  intro fuel
  induction fuel with
  | zero => intro r n r' hs; simp [processNode] at hs
  | succ f ih =>
    intro r n r' hs i hi
    rcases processNode_cases hs with ⟨_, hr'⟩ | ⟨pa, r1, _, hint, hrest⟩
    · rw [hr']
      exact hi
    · have h1 : lookupA r1.registry i ≠ none := by
        rw [(integrate_simple_parts hint).2.2.1]
        exact lookupA_setA_ne_none _ _ _ _ hi
      rcases hrest with ⟨_, hr'⟩ | ⟨orphans, r2, _, hpm, hr'⟩
      · rw [hr']
        exact h1
      · have hp := processMany_pres_of
          (fun a b => ∀ j, lookupA a.registry j ≠ none → lookupA b.registry j ≠ none)
          (fun r j h => h) (fun a b c hab hbc j h => hbc j (hab j h))
          f (fun r n r' h => ih r n r' h) orphans r1 r2 hpm
        rw [hr']
        exact hp i h1

lemma processNode_deleted : ∀ (fuel : Nat) (r : RGA) (n : Node) (r' : RGA),
    processNode fuel r n = some r' →
    ∀ a m, nthNode r.heap a = some m →
      ∃ m', nthNode r'.heap a = some m' ∧ (m.deleted = true → m'.deleted = true) := by
  intro fuel
  induction fuel with
  | zero => intro r n r' hs; simp [processNode] at hs
  | succ f ih =>
    intro r n r' hs a m hm
    rcases processNode_cases hs with ⟨_, hr'⟩ | ⟨pa, r1, _, hint, hrest⟩
    · rw [hr']
      exact ⟨m, hm, fun h => h⟩
    · rcases integrate_frame hint a m hm with ⟨m1, hm1, hc1⟩
      have hd1 : m.deleted = true → m1.deleted = true := by
        intro h
        have h6 : m1.deleted = m.deleted := by
          have := congrArg (fun t => t.2.2.2) hc1
          simpa [nodeCore] using this
        rw [h6, h]
      rcases hrest with ⟨_, hr'⟩ | ⟨orphans, r2, _, hpm, hr'⟩
      · rw [hr']
        exact ⟨m1, hm1, hd1⟩
      · have hp := processMany_pres_of
          (fun x y => ∀ b q, nthNode x.heap b = some q →
            ∃ q', nthNode y.heap b = some q' ∧ (q.deleted = true → q'.deleted = true))
          (fun x b q hq => ⟨q, hq, fun h => h⟩)
          (fun x y z hxy hyz b q hq => by
            rcases hxy b q hq with ⟨q1, hq1, hd⟩
            rcases hyz b q1 hq1 with ⟨q2, hq2, hd2⟩
            exact ⟨q2, hq2, fun h => hd2 (hd h)⟩)
          f (fun r n r' h => ih r n r' h) orphans r1 r2 hpm
        rcases hp a m1 hm1 with ⟨m2, hm2, hd2⟩
        rw [hr']
        exact ⟨m2, hm2, fun h => hd2 (hd1 h)⟩

lemma processNode_registers (fuel : Nat) (r : RGA) (n : Node) (r' : RGA)
    (hs : processNode fuel r n = some r')
    (hpar : lookupA r.registry n.parentID ≠ none) :
    lookupA r'.registry n.id ≠ none := by
  cases fuel with
  | zero => simp [processNode] at hs
  | succ f =>
    rcases processNode_cases hs with ⟨hn, _⟩ | ⟨pa, r1, _, hint, hrest⟩
    · exact absurd hn hpar
    · have h1 : lookupA r1.registry n.id ≠ none := by
        rw [(integrate_simple_parts hint).2.2.1, lookupA_setA_self]
        exact Option.some_ne_none _
      rcases hrest with ⟨_, hr'⟩ | ⟨orphans, r2, _, hpm, hr'⟩
      · rw [hr']
        exact h1
      · have hp := processMany_pres_of
          (fun a b => ∀ j, lookupA a.registry j ≠ none → lookupA b.registry j ≠ none)
          (fun r j h => h) (fun a b c hab hbc j h => hbc j (hab j h))
          f (fun r n r' h => processNode_regMono f r n r' h) orphans r1 r2 hpm
        rw [hr']
        exact hp n.id h1

/-- Every snapshot in a drained batch whose parent is already registered
ends up registered after the drain. -/
lemma processMany_registers (fuel : Nat) (k : ID) :
    ∀ (cs : List Node) (r0 r2 : RGA),
    processMany fuel r0 cs = some r2 → (∀ s ∈ cs, s.parentID = k) →
    lookupA r0.registry k ≠ none →
    ∀ s ∈ cs, lookupA r2.registry s.id ≠ none := by
  intro cs
  induction cs with
  | nil => intro r0 r2 _ _ _ s hsmem; simp at hsmem
  | cons c rest ih =>
    intro r0 r2 hpm hpar hk s hsmem
    rw [processMany_cons] at hpm
    cases hpn : processNode fuel r0 c with
    | none => rw [hpn] at hpm; cases hpm
    | some s1 =>
      rw [hpn] at hpm
      have hk1 : lookupA s1.registry k ≠ none :=
        processNode_regMono fuel r0 c s1 hpn k hk
      rcases List.mem_cons.mp hsmem with h5 | h5
      · subst h5
        have hreg : lookupA s1.registry s.id ≠ none := by
          refine processNode_registers fuel r0 s s1 hpn ?_
          rw [hpar s (List.mem_cons_self _ _)]
          exact hk
        exact processMany_pres_of
          (fun a b => ∀ j, lookupA a.registry j ≠ none → lookupA b.registry j ≠ none)
          (fun r j h => h) (fun a b c hab hbc j h => hbc j (hab j h))
          fuel (fun r n r' h => processNode_regMono fuel r n r' h) rest s1 r2 hpm
          s.id hreg
      · exact ih s1 r2 hpm (fun q hq => hpar q (List.mem_cons_of_mem _ hq)) hk1 s h5

lemma wf_buffer {r : RGA} (hwf : WF r) (n : Node)
    (_hn : lookupA r.registry n.parentID = none) :
    WF { r with pendingOrphans := setA r.pendingOrphans n.parentID
                  (((lookupA r.pendingOrphans n.parentID).getD []) ++ [n]) } := by
  rcases hwf with ⟨l, hw⟩
  refine ⟨l, hw.rooted, hw.nodup, hw.reg, hw.parents, ?_⟩
  intro k ns hla s hsmem
  by_cases hk : n.parentID = k
  · subst hk
    rw [lookupA_setA_self] at hla
    have hns : ns = ((lookupA r.pendingOrphans n.parentID).getD []) ++ [n] :=
      (Option.some.inj hla).symm
    rw [hns] at hsmem
    rcases List.mem_append.mp hsmem with h5 | h5
    · cases hold : lookupA r.pendingOrphans n.parentID with
      | none => rw [hold] at h5; simp at h5
      | some os =>
        rw [hold] at h5
        exact hw.orphans _ os hold s h5
    · rw [List.mem_singleton.mp h5]
  · rw [lookupA_setA_ne _ _ _ _ hk] at hla
    exact hw.orphans k ns hla s hsmem

lemma wf_erase {r : RGA} (hwf : WF r) (k : ID) :
    WF { r with pendingOrphans := eraseA r.pendingOrphans k } := by
  rcases hwf with ⟨l, hw⟩
  refine ⟨l, hw.rooted, hw.nodup, hw.reg, hw.parents, ?_⟩
  intro j ns hla s hsmem
  by_cases hj : j = k
  · subst hj
    rw [lookupA_eraseA_self] at hla
    cases hla
  · rw [lookupA_eraseA_ne _ _ _ hj] at hla
    exact hw.orphans j ns hla s hsmem

lemma processNode_wf : ∀ (fuel : Nat) (r : RGA) (n : Node) (r' : RGA),
    processNode fuel r n = some r' → WF r → WF r' := by
  intro fuel
  induction fuel with
  | zero => intro r n r' hs; simp [processNode] at hs
  | succ f ih =>
    intro r n r' hs hwf
    rcases processNode_cases hs with ⟨hn0, hr'⟩ | ⟨pa, r1, _, hint, hrest⟩
    · rw [hr']
      exact wf_buffer hwf n hn0
    · rcases hwf with ⟨l, hw⟩
      rcases integrate_core hw hint with
        ⟨_, _, _, _, _, _, l', _, _, _, _, _, _, _, hwf1, _⟩
      have hwf1' : WF r1 := ⟨l', hwf1⟩
      rcases hrest with ⟨_, hr'⟩ | ⟨orphans, r2, _, hpm, hr'⟩
      · rw [hr']
        exact hwf1'
      · have hp := processMany_pres_of (fun a b => WF a → WF b)
          (fun r h => h) (fun a b c hab hbc h => hbc (hab h))
          f (fun r n r' h => ih r n r' h) orphans r1 r2 hpm
        rw [hr']
        exact wf_erase (hp hwf1') n.id

lemma processNode_orphan_forward : ∀ (fuel : Nat) (r : RGA) (n : Node) (r' : RGA),
    processNode fuel r n = some r' → WF r →
    ∀ k s, orphMem r k s → orphMem r' k s ∨ lookupA r'.registry s.id ≠ none := by
  intro fuel
  induction fuel with
  | zero => intro r n r' hs; simp [processNode] at hs
  | succ f ih =>
    intro r n r' hs hwf k s hom
    rcases hom with ⟨ns, hla, hsmem⟩
    rcases processNode_cases hs with ⟨hn, hr'⟩ | ⟨pa, r1, _, hint, hrest⟩
    · left
      rw [hr']
      by_cases hk : n.parentID = k
      · subst hk
        refine ⟨((lookupA r.pendingOrphans n.parentID).getD []) ++ [n], ?_, ?_⟩
        · exact lookupA_setA_self _ _ _
        · rw [hla]
          exact List.mem_append_left _ hsmem
      · exact ⟨ns, by rw [lookupA_setA_ne _ _ _ _ hk]; exact hla, hsmem⟩
    · have horph1 : r1.pendingOrphans = r.pendingOrphans :=
        (integrate_simple_parts hint).2.2.2.1
      have hreg1 : lookupA r1.registry n.id ≠ none := by
        rw [(integrate_simple_parts hint).2.2.1, lookupA_setA_self]
        exact Option.some_ne_none _
      have hom1 : orphMem r1 k s := ⟨ns, by rw [horph1]; exact hla, hsmem⟩
      rcases hrest with ⟨_, hr'⟩ | ⟨orphans, r2, horphlook, hpm, hr'⟩
      · left
        rw [hr']
        exact hom1
      · have hwf1 : WF r1 := by
          rcases hwf with ⟨l, hw⟩
          rcases integrate_core hw hint with
            ⟨_, _, _, _, _, _, l', _, _, _, _, _, _, _, hwf1, _⟩
          exact ⟨l', hwf1⟩
        have hp := processMany_pres_of
          (fun a b =>
            (∀ j, lookupA a.registry j ≠ none → lookupA b.registry j ≠ none) ∧
            (WF a → WF b) ∧
            (WF a → ∀ k2 s2, orphMem a k2 s2 →
              orphMem b k2 s2 ∨ lookupA b.registry s2.id ≠ none))
          (fun r => ⟨fun j h => h, fun h => h, fun _ _ _ h => Or.inl h⟩)
          (fun a b c hab hbc =>
            ⟨fun j h => hbc.1 j (hab.1 j h),
             fun h => hbc.2.1 (hab.2.1 h),
             fun hwa k2 s2 hm => by
              rcases hab.2.2 hwa k2 s2 hm with h5 | h5
              · exact hbc.2.2 (hab.2.1 hwa) k2 s2 h5
              · exact Or.inr (hbc.1 s2.id h5)⟩)
          f (fun rx nx rx' hx =>
            ⟨processNode_regMono f rx nx rx' hx,
             processNode_wf f rx nx rx' hx,
             ih rx nx rx' hx⟩)
          orphans r1 r2 hpm
        by_cases hk : k = n.id
        · subst hk
          -- the whole bucket under this key is drained and integrated
          right
          rw [hr']
          show lookupA r2.registry s.id ≠ none
          have hcs : ns = orphans := by
            rw [horph1] at horphlook
            rw [hla] at horphlook
            exact Option.some.inj horphlook
          have hparents : ∀ q ∈ orphans, q.parentID = n.id := by
            rcases hwf with ⟨l, hw⟩
            rw [horph1] at horphlook
            exact hw.orphans n.id orphans horphlook
          exact processMany_registers f n.id orphans r1 r2 hpm hparents hreg1 s
            (hcs ▸ hsmem)
        · rcases hp.2.2 hwf1 k s hom1 with h5 | h5
          · left
            rw [hr']
            rcases h5 with ⟨ns2, hla2, hsmem2⟩
            exact ⟨ns2, by rw [show ({ r2 with pendingOrphans := eraseA r2.pendingOrphans n.id } :
              RGA).pendingOrphans = eraseA r2.pendingOrphans n.id from rfl,
              lookupA_eraseA_ne _ _ _ hk]; exact hla2, hsmem2⟩
          · right
            rw [hr']
            exact h5

/-- Case analysis of a successful `mergeStep`. -/
lemma mergeStep_cases {r : RGA} {n : Node} {fuel : Nat} {r' : RGA}
    (hs : mergeStep r n fuel = some r') :
    (∃ a, lookupA r.registry n.id = some a ∧
      ((n.deleted = true ∧ ∃ m, nthNode r.heap a = some m ∧
        r' = { r with heap := setNode r.heap a { m with deleted := true } }) ∨
       (n.deleted = false ∧ r' = r))) ∨
    (lookupA r.registry n.id = none ∧ processNode fuel r n = some r') := by
  cases h1 : lookupA r.registry n.id with
  | none =>
    simp only [mergeStep, h1] at hs
    exact Or.inr ⟨rfl, hs⟩
  | some a =>
    cases hd : n.deleted with
    | true =>
      cases h2 : nthNode r.heap a with
      | none => simp [mergeStep, h1, hd, h2] at hs
      | some m =>
        simp only [mergeStep, h1, hd, if_true, h2] at hs
        exact Or.inl ⟨a, rfl, Or.inl ⟨rfl, m, h2, (Option.some.inj hs).symm⟩⟩
    | false =>
      simp only [mergeStep, h1, hd, if_false] at hs
      exact Or.inl ⟨a, rfl, Or.inr ⟨rfl, (Option.some.inj hs).symm⟩⟩

/-- Setting a tombstone flag keeps the invariant: only the `deleted`
field of one node changes, no link moves. -/
lemma wfon_set_deleted {r : RGA} {l : List Nat} (hw : WFon r l) (a : Nat) (m : Node)
    (hm : nthNode r.heap a = some m) :
    WFon { r with heap := setNode r.heap a { m with deleted := true } } l := by
  have halt : a < r.heap.length := nthNode_lt _ _ _ hm
  have hag : ∀ b, (nthNode (setNode r.heap a { m with deleted := true }) b).map
      Node.next = (nthNode r.heap b).map Node.next := by
    intro b
    by_cases hab : a = b
    · subst hab
      rw [nthNode_setNode_self _ _ _ halt, hm]
      rfl
    · rw [nthNode_setNode_ne _ _ _ _ hab]
  refine ⟨?_, hw.nodup, hw.reg, ?_, hw.orphans⟩
  · rcases hw.rooted with ⟨rn, hrn, hch⟩
    have h5 := hag r.rootAddr
    rw [hrn] at h5
    rcases Option.map_eq_some'.mp h5 with ⟨rn', hrn', hnext⟩
    refine ⟨rn', hrn', ?_⟩
    rw [hnext]
    exact chainFrom_frame hch (fun b _ => hag b)
  · intro b hb q hq
    by_cases hab : a = b
    · subst hab
      rw [nthNode_setNode_self _ _ _ halt] at hq
      have hqm : q.parentID = m.parentID := by
        rw [← Option.some.inj hq]
      rw [hqm]
      exact hw.parents a hb m hm
    · rw [nthNode_setNode_ne _ _ _ _ hab] at hq
      exact hw.parents b hb q hq

lemma wf_set_deleted {r : RGA} (hwf : WF r) (a : Nat) (m : Node)
    (hm : nthNode r.heap a = some m) :
    WF { r with heap := setNode r.heap a { m with deleted := true } } := by
  rcases hwf with ⟨l, hw⟩
  exact ⟨l, wfon_set_deleted hw a m hm⟩

lemma mergeStep_wf {r : RGA} {n : Node} {fuel : Nat} {r' : RGA}
    (hs : mergeStep r n fuel = some r') (hwf : WF r) : WF r' := by
  rcases mergeStep_cases hs with ⟨a, _, ⟨_, m, hm, hr'⟩ | ⟨_, hr'⟩⟩ | ⟨_, hpn⟩
  · rw [hr']
    exact wf_set_deleted hwf a m hm
  · rw [hr']
    exact hwf
  · exact processNode_wf fuel r n r' hpn hwf

lemma mergeStep_regMono {r : RGA} {n : Node} {fuel : Nat} {r' : RGA}
    (hs : mergeStep r n fuel = some r') :
    ∀ i, lookupA r.registry i ≠ none → lookupA r'.registry i ≠ none := by
  rcases mergeStep_cases hs with ⟨a, _, ⟨_, m, hm, hr'⟩ | ⟨_, hr'⟩⟩ | ⟨_, hpn⟩
  · rw [hr']
    exact fun i h => h
  · rw [hr']
    exact fun i h => h
  · exact processNode_regMono fuel r n r' hpn

lemma mergeStep_deleted {r : RGA} {n : Node} {fuel : Nat} {r' : RGA}
    (hs : mergeStep r n fuel = some r') :
    ∀ a m, nthNode r.heap a = some m →
      ∃ m', nthNode r'.heap a = some m' ∧ (m.deleted = true → m'.deleted = true) := by
  rcases mergeStep_cases hs with ⟨b, _, ⟨_, m0, hm0, hr'⟩ | ⟨_, hr'⟩⟩ | ⟨_, hpn⟩
  · intro a m hm
    rw [hr']
    by_cases hab : b = a
    · subst hab
      have hmm : m0 = m := by
        rw [hm0] at hm
        exact Option.some.inj hm
      refine ⟨{ m0 with deleted := true }, ?_, fun _ => rfl⟩
      exact nthNode_setNode_self _ _ _ (nthNode_lt _ _ _ hm0)
    · rw [nthNode_setNode_ne _ _ _ _ hab]
      exact ⟨m, hm, fun hh => hh⟩
  · intro a m hm
    rw [hr']
    exact ⟨m, hm, fun h => h⟩
  · exact processNode_deleted fuel r n r' hpn

lemma mergeStep_orphan_forward {r : RGA} {n : Node} {fuel : Nat} {r' : RGA}
    (hs : mergeStep r n fuel = some r') (hwf : WF r) :
    ∀ k s, orphMem r k s → orphMem r' k s ∨ lookupA r'.registry s.id ≠ none := by
  rcases mergeStep_cases hs with ⟨a, _, ⟨_, m, hm, hr'⟩ | ⟨_, hr'⟩⟩ | ⟨_, hpn⟩
  · intro k s hom
    left
    rw [hr']
    exact hom
  · intro k s hom
    left
    rw [hr']
    exact hom
  · exact processNode_orphan_forward fuel r n r' hpn hwf

lemma merge_foldl_none (ns : List Node) (fuel : Nat) :
    ns.foldl (fun acc n => acc.bind fun s => mergeStep s n fuel) none = none := by
  induction ns with
  | nil => rfl
  | cons n rest ih => simpa using ih

lemma Merge_cons (r : RGA) (n : Node) (ns : List Node) (fuel : Nat) :
    RGA.Merge r (n :: ns) fuel
      = match mergeStep r n fuel with
        | none => none
        | some s => RGA.Merge s ns fuel := by
  cases h : mergeStep r n fuel with
  | none =>
    show List.foldl _ _ _ = _
    rw [List.foldl_cons]
    simp only [Option.bind, h]
    exact merge_foldl_none ns fuel
  | some s =>
    show List.foldl _ _ _ = _
    rw [List.foldl_cons]
    simp only [Option.bind, h]
    rfl

lemma Merge_nil (r : RGA) (fuel : Nat) : RGA.Merge r [] fuel = some r := rfl

/-- Preservation of a reflexive-transitive transition relation along a
whole `Merge` batch. -/
lemma merge_pres_of (P : RGA → RGA → Prop) (hrefl : ∀ r, P r r)
    (htrans : ∀ a b c, P a b → P b c → P a c) (fuel : Nat)
    (hstep : ∀ r n r', mergeStep r n fuel = some r' → P r r') :
    ∀ (ns : List Node) (r r' : RGA), RGA.Merge r ns fuel = some r' → P r r' := by
  intro ns
  induction ns with
  | nil =>
    intro r r' h
    rw [Merge_nil] at h
    exact (Option.some.inj h) ▸ hrefl r
  | cons n rest ih =>
    intro r r' h
    rw [Merge_cons] at h
    cases hms : mergeStep r n fuel with
    | none => rw [hms] at h; cases h
    | some s =>
      rw [hms] at h
      exact htrans _ _ _ (hstep r n s hms) (ih s r' h)

lemma merge_wf {r : RGA} {ns : List Node} {fuel : Nat} {r' : RGA}
    (hs : RGA.Merge r ns fuel = some r') (hwf : WF r) : WF r' :=
  merge_pres_of (fun a b => WF a → WF b) (fun _ h => h)
    (fun _ _ _ hab hbc h => hbc (hab h)) fuel
    (fun _ _ _ h hw => mergeStep_wf h hw) ns r r' hs hwf

lemma merge_regMono {r : RGA} {ns : List Node} {fuel : Nat} {r' : RGA}
    (hs : RGA.Merge r ns fuel = some r') :
    ∀ i, lookupA r.registry i ≠ none → lookupA r'.registry i ≠ none :=
  merge_pres_of (fun a b => ∀ i, lookupA a.registry i ≠ none →
      lookupA b.registry i ≠ none)
    (fun _ _ h => h) (fun _ _ _ hab hbc i h => hbc i (hab i h)) fuel
    (fun _ _ _ h => mergeStep_regMono h) ns r r' hs

lemma merge_deleted {r : RGA} {ns : List Node} {fuel : Nat} {r' : RGA}
    (hs : RGA.Merge r ns fuel = some r') :
    ∀ a m, nthNode r.heap a = some m →
      ∃ m', nthNode r'.heap a = some m' ∧ (m.deleted = true → m'.deleted = true) :=
  merge_pres_of (fun x y => ∀ b q, nthNode x.heap b = some q →
      ∃ q', nthNode y.heap b = some q' ∧ (q.deleted = true → q'.deleted = true))
    (fun _ b q hq => ⟨q, hq, fun h => h⟩)
    (fun _ _ _ hxy hyz b q hq => by
      rcases hxy b q hq with ⟨q1, hq1, hd1⟩
      rcases hyz b q1 hq1 with ⟨q2, hq2, hd2⟩
      exact ⟨q2, hq2, fun h => hd2 (hd1 h)⟩) fuel
    (fun _ _ _ h => mergeStep_deleted h) ns r r' hs

lemma merge_orphan_forward {r : RGA} {ns : List Node} {fuel : Nat} {r' : RGA}
    (hs : RGA.Merge r ns fuel = some r') (hwf : WF r) :
    ∀ k s, orphMem r k s → orphMem r' k s ∨ lookupA r'.registry s.id ≠ none :=
  merge_pres_of (fun a b =>
      (∀ i, lookupA a.registry i ≠ none → lookupA b.registry i ≠ none) ∧
      (WF a → WF b) ∧
      (WF a → ∀ k s, orphMem a k s → orphMem b k s ∨ lookupA b.registry s.id ≠ none))
    (fun _ => ⟨fun _ h => h, fun h => h, fun _ _ _ h => Or.inl h⟩)
    (fun a b c hab hbc =>
      ⟨fun i h => hbc.1 i (hab.1 i h), fun h => hbc.2.1 (hab.2.1 h),
       fun hwa k s hm => by
        rcases hab.2.2 hwa k s hm with h5 | h5
        · exact hbc.2.2 (hab.2.1 hwa) k s h5
        · exact Or.inr (hbc.1 s.id h5)⟩) fuel
    (fun x n x' h =>
      ⟨mergeStep_regMono h, fun hw => mergeStep_wf h hw,
       fun hw => mergeStep_orphan_forward h hw⟩) ns r r' hs
    |>.2.2 hwf

/-- Case analysis of `Delete`. -/
lemma delete_cases (r : RGA) (i : ID) :
    r.Delete i = r ∨
    ∃ a m, lookupA r.registry i = some a ∧ nthNode r.heap a = some m ∧
      r.Delete i = { r with heap := setNode r.heap a { m with deleted := true } } := by
  cases h1 : lookupA r.registry i with
  | none =>
    left
    simp [RGA.Delete, h1]
  | some a =>
    cases h2 : nthNode r.heap a with
    | none =>
      left
      simp [RGA.Delete, h1, h2]
    | some m =>
      right
      exact ⟨a, m, rfl, h2, by simp [RGA.Delete, h1, h2]⟩

lemma delete_wf {r : RGA} (hwf : WF r) (i : ID) : WF (r.Delete i) := by
  rcases delete_cases r i with h | ⟨a, m, _, hm, h⟩
  · rw [h]
    exact hwf
  · rw [h]
    exact wf_set_deleted hwf a m hm

/-- Destructuring of a successful `Insert`. -/
lemma insert_parts {r : RGA} {v : Char} {pid : ID} {fuel : Nat} {i : ID} {r' : RGA}
    (hs : r.Insert v pid fuel = some (i, r')) :
    i = ⟨r.clock + 1, r.nodeID⟩ ∧
    integrate { r with clock := r.clock + 1 } ⟨r.clock + 1, r.nodeID⟩ pid v false fuel
      = some r' := by
  cases h1 : integrate { r with clock := r.clock + 1 } ⟨r.clock + 1, r.nodeID⟩ pid v
      false fuel with
  | none => simp [RGA.Insert, h1] at hs
  | some r2 =>
    simp only [RGA.Insert, h1] at hs
    have h2 : i = ⟨r.clock + 1, r.nodeID⟩ ∧ r2 = r' := by
      have := Option.some.inj hs
      exact ⟨(congrArg Prod.fst this).symm, congrArg Prod.snd this⟩
    refine ⟨h2.1, ?_⟩
    rw [h2.2]

lemma wfon_clock {r : RGA} {l : List Nat} (hw : WFon r l) (c : Int) :
    WFon { r with clock := c } l :=
  ⟨hw.rooted, hw.nodup, hw.reg, hw.parents, hw.orphans⟩

lemma insert_wf {r : RGA} {v : Char} {pid : ID} {fuel : Nat} {i : ID} {r' : RGA}
    (hs : r.Insert v pid fuel = some (i, r')) (hwf : WF r) : WF r' := by
  rcases insert_parts hs with ⟨_, hint⟩
  rcases hwf with ⟨l, hw⟩
  rcases integrate_core (wfon_clock hw (r.clock + 1)) hint with
    ⟨_, _, _, _, _, _, l', _, _, _, _, _, _, _, hwf1, _⟩
  exact ⟨l', hwf1⟩

/-- The RGA states reachable through the library interface, through any
sequence of (successful) `Insert`, `Delete`, and `Merge` calls. -/
inductive Reachable : RGA → Prop
  | new (nid : String) : Reachable (NewRGA nid)
  | insert {r : RGA} {v : Char} {p : ID} {fuel : Nat} {i : ID} {r' : RGA} :
      Reachable r → RGA.Insert r v p fuel = some (i, r') → Reachable r'
  | del {r : RGA} {i : ID} : Reachable r → Reachable (r.Delete i)
  | merge {r : RGA} {ns : List Node} {fuel : Nat} {r' : RGA} :
      Reachable r → RGA.Merge r ns fuel = some r' → Reachable r'

/-- Every reachable state satisfies the structural invariant. -/
lemma reach_wf {r : RGA} (h : Reachable r) : WF r := by
  induction h with
  | new nid => exact ⟨[], wf_new nid⟩
  | insert _ hs ih => exact insert_wf hs ih
  | del _ ih => exact delete_wf ih _
  | merge _ hs ih => exact merge_wf hs ih

/-- One successful library call. -/
def OneStep (r r' : RGA) : Prop :=
  (∃ v p fuel i, RGA.Insert r v p fuel = some (i, r')) ∨
  (∃ i, r' = r.Delete i) ∨
  (∃ ns fuel, RGA.Merge r ns fuel = some r')

/-! ### The visible value against the chain -/

/-- The characters contributed by a list of addresses: values of the
non-tombstoned nodes, in order. -/
def visOf (h : List Node) (L : List Nat) : List Char :=
  L.filterMap (fun a =>
    match nthNode h a with
    | none => none
    | some n => if n.deleted then none else some n.value)

lemma visOf_append (h : List Node) (L1 L2 : List Nat) :
    visOf h (L1 ++ L2) = visOf h L1 ++ visOf h L2 :=
  List.filterMap_append _ _ _

lemma visAt_frame (h h' : List Node) (a : Nat)
    (h5 : (nthNode h' a).map nodeCore = (nthNode h a).map nodeCore) :
    (match nthNode h' a with
     | none => none
     | some n => if n.deleted then none else some n.value)
    = (match nthNode h a with
       | none => none
       | some n => if n.deleted then none else some n.value) := by
  cases hn : nthNode h a with
  | none =>
    rw [hn] at h5
    cases hn' : nthNode h' a with
    | none => rfl
    | some q => rw [hn'] at h5; cases h5
  | some n =>
    rw [hn] at h5
    cases hn' : nthNode h' a with
    | none => rw [hn'] at h5; cases h5
    | some n' =>
      rw [hn'] at h5
      have hc := Option.some.inj h5
      have hdel : n'.deleted = n.deleted := by
        have := congrArg (fun t => t.2.2.2) hc
        simpa [nodeCore] using this
      have hval : n'.value = n.value := by
        have := congrArg (fun t => t.2.2.1) hc
        simpa [nodeCore] using this
      show (if n'.deleted then none else some n'.value)
        = (if n.deleted then none else some n.value)
      rw [hdel, hval]

lemma visOf_frame {h h' : List Node} {L : List Nat}
    (hag : ∀ a ∈ L, (nthNode h' a).map nodeCore = (nthNode h a).map nodeCore) :
    visOf h' L = visOf h L := by
  induction L with
  | nil => rfl
  | cons a L' ih =>
    have h5 := visAt_frame h h' a (hag a (List.mem_cons_self _ _))
    have htail := ih (fun b hb => hag b (List.mem_cons_of_mem _ hb))
    show List.filterMap _ (a :: L') = List.filterMap _ (a :: L')
    rw [List.filterMap_cons, List.filterMap_cons, h5]
    cases hx : (match nthNode h a with
                | none => none
                | some n => if n.deleted then none else some n.value) with
    | none => exact htail
    | some b => exact congrArg (List.cons b) htail

lemma chainFrom_unique {h : List Node} :
    ∀ {L L' : List Nat} {o : Option Nat},
    ChainFrom h o L → ChainFrom h o L' → L = L' := by
  intro L
  induction L with
  | nil =>
    intro L' o hc hc'
    rw [chainFrom_nil_inv hc] at hc'
    cases hc'
    rfl
  | cons a L1 ih =>
    intro L' o hc hc'
    rcases chainFrom_cons_inv hc with ⟨rfl, n, hn, hch⟩
    cases L' with
    | nil => cases chainFrom_nil_inv hc'
    | cons b L2 =>
      rcases chainFrom_cons_inv hc' with ⟨hb, n', hn', hch'⟩
      have hab : a = b := Option.some.inj hb
      subst hab
      have hnn : n = n' := by
        rw [hn] at hn'
        exact Option.some.inj hn'
      subst hnn
      rw [ih hch hch']

lemma visWalk_chain {h : List Node} :
    ∀ (L : List Nat) (o : Option Nat) (fuel : Nat),
    ChainFrom h o L → L.length ≤ fuel → visWalk h fuel o = visOf h L := by
  intro L
  induction L with
  | nil =>
    intro o fuel hc _
    rw [chainFrom_nil_inv hc]
    cases fuel <;> rfl
  | cons a L' ih =>
    intro o fuel hc hf
    rcases chainFrom_cons_inv hc with ⟨rfl, n, hn, hch⟩
    cases fuel with
    | zero => simp at hf
    | succ f =>
      have htail := ih n.next f hch (by simpa using hf)
      show visWalk h (f + 1) (some a) = _
      rw [show visWalk h (f + 1) (some a)
          = (match nthNode h a with
             | none => []
             | some n => if n.deleted then visWalk h f n.next
               else n.value :: visWalk h f n.next) from rfl, hn]
      show (if n.deleted then visWalk h f n.next else n.value :: visWalk h f n.next)
        = visOf h (a :: L')
      rw [htail]
      have hrhs : visOf h (a :: L')
          = (match nthNode h a with
             | none => none
             | some q => if q.deleted then none else some q.value).toList
            ++ visOf h L' := by
        show List.filterMap _ (a :: L') = _
        rw [List.filterMap_cons]
        cases hx : (match nthNode h a with
                    | none => none
                    | some q => if q.deleted then none else some q.value) with
        | none => rfl
        | some b => rfl
      rw [hrhs, hn]
      cases hd : n.deleted with
      | true => simp [hd]
      | false => simp [hd]

/-- On a well-formed state `Value` computes exactly the visible
characters of the chain. -/
lemma valueChars_eq {r : RGA} {l : List Nat} (hw : WFon r l) :
    r.valueChars = visOf r.heap l := by
  rcases hw.rooted with ⟨rn, hrn, hch⟩
  have hlen : l.length ≤ r.heap.length := by
    have h1 := nodup_length_le (r.rootAddr :: l) r.heap.length hw.nodup (wfon_mem_lt hw)
    simpa using Nat.le_of_succ_le h1
  show (match nthNode r.heap r.rootAddr with
        | none => []
        | some rn => visWalk r.heap r.heap.length rn.next) = _
  rw [hrn]
  exact visWalk_chain l rn.next r.heap.length hch hlen

/-- C10: `Value` always wraps a Go string (a caller's type assertion to
`string` always succeeds and never sees nil); a fresh replica reports
the empty string; whenever every non-root node is tombstoned the result
is again the empty string; and the root sentinel's payload is never
emitted, because the traversal is exactly the chain that starts at the
node after the root and never revisits the root. -/
theorem c10_value_string :
    (∀ r : RGA, ∃ s, RGA.Value r = GoValue.str s) ∧
    (∀ nid, (NewRGA nid).valueChars = []) ∧
    (∀ r : RGA, Reachable r →
      (∀ a, a < r.heap.length → a ≠ r.rootAddr →
        (nthNode r.heap a).map Node.deleted = some true) →
      r.valueChars = []) ∧
    (∀ r : RGA, Reachable r →
      ∃ l, RootedChain r l ∧ r.rootAddr ∉ l ∧ r.valueChars = visOf r.heap l) := by
  refine ⟨fun r => ⟨String.mk r.valueChars, rfl⟩, fun nid => rfl, ?_, ?_⟩
  · intro r hr hdel
    rcases reach_wf hr with ⟨l, hw⟩
    rw [valueChars_eq hw]
    rw [show visOf r.heap l = List.filterMap _ l from rfl, List.filterMap_eq_nil_iff]
    intro a ha
    have hmem : a ∈ r.rootAddr :: l := List.mem_cons_of_mem _ ha
    have halt : a < r.heap.length := wfon_mem_lt hw a hmem
    have hanr : a ≠ r.rootAddr := by
      intro hc
      have := hw.nodup
      rw [List.nodup_cons] at this
      exact this.1 (hc ▸ ha)
    have hd := hdel a halt hanr
    cases hn : nthNode r.heap a with
    | none => rfl
    | some n =>
      rw [hn] at hd
      have : n.deleted = true := Option.some.inj hd
      show (if n.deleted then none else some n.value) = none
      rw [this]
      rfl
  · intro r hr
    rcases reach_wf hr with ⟨l, hw⟩
    refine ⟨l, hw.rooted, ?_, valueChars_eq hw⟩
    have := hw.nodup
    rw [List.nodup_cons] at this
    exact this.1

/-- The state after inserting `'A'` after the root on a fresh replica
`alice` (spelled out so that reachability is a concrete derivation). -/
def c10base : RGA :=
  { nodeID := "alice", clock := 1,
    registry := [(rootID, 0), (⟨1, "alice"⟩, 1)],
    heap := [⟨rootID, ⟨0, ""⟩, Char.ofNat 0, false, some 1⟩,
             ⟨⟨1, "alice"⟩, rootID, 'A', false, none⟩],
    rootAddr := 0, pendingOrphans := [] }

/-- The spec's scenario 4: insert a character, then delete it. -/
def c10wit : RGA := c10base.Delete ⟨1, "alice"⟩

/-- C10 witness: the empty fresh value, and the insert-then-delete
state whose every non-root node is tombstoned, evaluated concretely. -/
theorem c10_value_string_witness :
    (∃ s, RGA.Value (NewRGA "w") = GoValue.str s) ∧
    (NewRGA "w").valueChars = [] ∧
    c10wit.valueChars = [] ∧
    (∃ l, RootedChain c10wit l ∧ c10wit.rootAddr ∉ l ∧
      c10wit.valueChars = visOf c10wit.heap l) := by
  have hins : RGA.Insert (NewRGA "alice") 'A' rootID 5 = some (⟨1, "alice"⟩, c10base) := by
    decide
  have hreach : Reachable c10wit :=
    Reachable.del (Reachable.insert (Reachable.new "alice") hins)
  exact ⟨c10_value_string.1 (NewRGA "w"), c10_value_string.2.1 "w",
    c10_value_string.2.2.1 c10wit hreach (by decide),
    c10_value_string.2.2.2 c10wit hreach⟩

/-! ### The orphan-key invariant (C6) -/

/-- Orphan-buffer keys are unregistered, up to an excused set `E` (the
keys currently being drained). -/
def OrphInvE (r : RGA) (E : ID → Prop) : Prop :=
  ∀ k ns, lookupA r.pendingOrphans k = some ns →
    lookupA r.registry k = none ∨ E k

lemma processNode_orphkeys : ∀ (fuel : Nat) (r : RGA) (n : Node) (r' : RGA),
    processNode fuel r n = some r' →
    ∀ E : ID → Prop, OrphInvE r E → OrphInvE r' E := by
  intro fuel
  induction fuel with
  | zero => intro r n r' hs; simp [processNode] at hs
  | succ f ih =>
    intro r n r' hs E hinv
    rcases processNode_cases hs with ⟨hn, hr'⟩ | ⟨pa, r1, hpar, hint, hrest⟩
    · rw [hr']
      intro k ns hla
      by_cases hk : n.parentID = k
      · subst hk
        exact Or.inl hn
      · have hla2 : lookupA (setA r.pendingOrphans n.parentID
            (((lookupA r.pendingOrphans n.parentID).getD []) ++ [n])) k
            = some ns := hla
        rw [lookupA_setA_ne _ _ _ _ hk] at hla2
        exact hinv k ns hla2
    · rcases integrate_simple_parts hint with ⟨_, _, hreg1, horph1, _⟩
      have hinv1 : OrphInvE r1 (fun k => E k ∨ k = n.id) := by
        intro k ns hla
        rw [horph1] at hla
        rcases hinv k ns hla with h5 | h5
        · by_cases hk : k = n.id
          · exact Or.inr (Or.inr hk)
          · rw [hreg1, lookupA_setA_ne _ _ _ _ (fun hc => hk hc.symm)]
            exact Or.inl h5
        · exact Or.inr (Or.inl h5)
      rcases hrest with ⟨hno, hr'⟩ | ⟨orphans, r2, horphlook, hpm, hr'⟩
      · rw [hr']
        intro k ns hla
        by_cases hk : k = n.id
        · subst hk
          rw [hla] at hno
          cases hno
        · rcases hinv1 k ns hla with h5 | h5
          · exact Or.inl h5
          · rcases h5 with h6 | h6
            · exact Or.inr h6
            · exact absurd h6 hk
      · have hp := processMany_pres_of
          (fun a b => ∀ E2, OrphInvE a E2 → OrphInvE b E2)
          (fun r E2 h => h) (fun a b c hab hbc E2 h => hbc E2 (hab E2 h))
          f (fun rx nx rx' hx => ih rx nx rx' hx) orphans r1 r2 hpm
        have hinv2 := hp _ hinv1
        rw [hr']
        intro k ns hla
        have hla2 : lookupA (eraseA r2.pendingOrphans n.id) k = some ns := hla
        by_cases hk : k = n.id
        · subst hk
          rw [lookupA_eraseA_self] at hla2
          cases hla2
        · rw [lookupA_eraseA_ne _ _ _ hk] at hla2
          rcases hinv2 k ns hla2 with h5 | h5
          · exact Or.inl h5
          · rcases h5 with h6 | h6
            · exact Or.inr h6
            · exact absurd h6 hk

lemma mergeStep_orphkeys {r : RGA} {n : Node} {fuel : Nat} {r' : RGA}
    (hs : mergeStep r n fuel = some r') (E : ID → Prop)
    (hinv : OrphInvE r E) : OrphInvE r' E := by
  rcases mergeStep_cases hs with ⟨a, _, ⟨_, m, hm, hr'⟩ | ⟨_, hr'⟩⟩ | ⟨_, hpn⟩
  · rw [hr']
    exact hinv
  · rw [hr']
    exact hinv
  · exact processNode_orphkeys fuel r n r' hpn E hinv

/-- The RGA states reachable by `Delete` and `Merge` alone (no local
`Insert`). -/
inductive MDReachable : RGA → Prop
  | new (nid : String) : MDReachable (NewRGA nid)
  | del {r : RGA} {i : ID} : MDReachable r → MDReachable (r.Delete i)
  | merge {r : RGA} {ns : List Node} {fuel : Nat} {r' : RGA} :
      MDReachable r → RGA.Merge r ns fuel = some r' → MDReachable r'

/-- C6 (amended): on every state reachable by `Delete` and `Merge`
alone, no key of the orphan buffer is registered — an identifier that
gets integrated during a merge drains and removes its buffered
children.  (A local `Insert` does not drain the buffer, which is why
the original claim fails; see the counterexample.) -/
theorem c6_orphan_key_invariant (r : RGA) (h : MDReachable r) :
    ∀ k ns, lookupA r.pendingOrphans k = some ns →
      lookupA r.registry k = none := by
  have hinv : OrphInvE r (fun _ => False) := by
    induction h with
    | new nid =>
      intro k ns hla
      simp [NewRGA, lookupA] at hla
    | del hprev ih =>
      rename_i r0 i
      rcases delete_cases r0 i with h5 | ⟨a, m, _, hm, h5⟩
      · rw [h5]
        exact ih
      · rw [h5]
        exact ih
    | merge hprev hm ih =>
      exact merge_pres_of (fun a b => ∀ E2, OrphInvE a E2 → OrphInvE b E2)
        (fun _ _ h => h) (fun _ _ _ hab hbc E2 h => hbc E2 (hab E2 h)) _
        (fun _ _ _ hx E2 h => mergeStep_orphkeys hx E2 h) _ _ _ hm _ ih
  intro k ns hla
  rcases hinv k ns hla with h5 | h5
  · exact h5
  · exact absurd h5 (fun h => h)

/-- A concrete `Delete`-and-`Merge`-reachable state holding a buffered
orphan. -/
def c6wit : RGA :=
  { nodeID := "x", clock := 0,
    registry := [(rootID, 0)],
    heap := [⟨rootID, ⟨0, ""⟩, Char.ofNat 0, false, none⟩],
    rootAddr := 0,
    pendingOrphans := [(⟨1, "x"⟩, [⟨⟨5, "y"⟩, ⟨1, "x"⟩, 'Q', false, none⟩])] }

/-- C6 witness: the invariant instantiated on a replica that buffered a
forged orphan via `Merge`. -/
theorem c6_orphan_key_invariant_witness :
    lookupA c6wit.registry ⟨1, "x"⟩ = none := by
  have hm : RGA.Merge (NewRGA "x") [⟨⟨5, "y"⟩, ⟨1, "x"⟩, 'Q', false, none⟩] 5
      = some c6wit := by decide
  exact c6_orphan_key_invariant c6wit
    (MDReachable.merge (MDReachable.new "x") hm)
    ⟨1, "x"⟩ [⟨⟨5, "y"⟩, ⟨1, "x"⟩, 'Q', false, none⟩] (by decide)

/-! ### The root-sentinel tombstone invariant (C7) -/

/-- The root sentinel lives at address 0, is not tombstoned, and no
identifier other than `(0, "root")` resolves to address 0. -/
def RootOK (r : RGA) : Prop :=
  r.rootAddr = 0 ∧
  (∃ m, nthNode r.heap 0 = some m ∧ m.deleted = false) ∧
  (∀ i, lookupA r.registry i = some 0 → i = rootID)

lemma integrate_rootflag {r : RGA} {id pid : ID} {v : Char} {d : Bool}
    {fuel : Nat} {r' : RGA} (hs : integrate r id pid v d fuel = some r')
    (hq : RootOK r) : RootOK r' := by
  rcases integrate_parts hs with ⟨pa, pnode, prev, cur, pn, h1, h2, h3, h4, hr'⟩
  rcases hq with ⟨hra, ⟨m, hm, hdel⟩, hreg⟩
  have hpos : 0 < r.heap.length := nthNode_lt _ _ _ hm
  refine ⟨by rw [hr', hra], ?_, ?_⟩
  · by_cases hp0 : prev = 0
    · subst hp0
      have hpn : pn = m := by
        rw [nthNode_append_lt _ _ _ hpos, hm] at h4
        exact (Option.some.inj h4).symm
      refine ⟨{ pn with next := some r.heap.length }, ?_, by
        show pn.deleted = false
        rw [hpn]
        exact hdel⟩
      rw [hr']
      exact nthNode_setNode_self _ _ _ (by simp)
    · refine ⟨m, ?_, hdel⟩
      rw [hr']
      show nthNode (setNode _ prev _) 0 = some m
      rw [nthNode_setNode_ne _ _ _ _ hp0, nthNode_append_lt _ _ _ hpos]
      exact hm
  · intro i hla
    rw [hr'] at hla
    have hla2 : lookupA (setA r.registry id r.heap.length) i = some 0 := hla
    by_cases hi : id = i
    · subst hi
      rw [lookupA_setA_self] at hla2
      have : r.heap.length = 0 := Option.some.inj hla2
      omega
    · rw [lookupA_setA_ne _ _ _ _ hi] at hla2
      exact hreg i hla2

lemma processNode_rootflag : ∀ (fuel : Nat) (r : RGA) (n : Node) (r' : RGA),
    processNode fuel r n = some r' → RootOK r → RootOK r' := by
  intro fuel
  induction fuel with
  | zero => intro r n r' hs; simp [processNode] at hs
  | succ f ih =>
    intro r n r' hs hq
    rcases processNode_cases hs with ⟨_, hr'⟩ | ⟨pa, r1, _, hint, hrest⟩
    · rw [hr']
      exact ⟨hq.1, hq.2.1, hq.2.2⟩
    · have hq1 := integrate_rootflag hint hq
      rcases hrest with ⟨_, hr'⟩ | ⟨orphans, r2, _, hpm, hr'⟩
      · rw [hr']
        exact hq1
      · have hp := processMany_pres_of (fun a b => RootOK a → RootOK b)
          (fun _ h => h) (fun _ _ _ hab hbc h => hbc (hab h))
          f (fun rx nx rx' hx => ih rx nx rx' hx) orphans r1 r2 hpm
        rw [hr']
        exact ⟨(hp hq1).1, (hp hq1).2.1, (hp hq1).2.2⟩

lemma mergeStep_rootflag {r : RGA} {n : Node} {fuel : Nat} {r' : RGA}
    (hs : mergeStep r n fuel = some r')
    (hn : ¬ (n.id = rootID ∧ n.deleted = true)) (hq : RootOK r) : RootOK r' := by
  rcases mergeStep_cases hs with ⟨a, hla, ⟨hd, m, hm, hr'⟩ | ⟨_, hr'⟩⟩ | ⟨_, hpn⟩
  · rcases hq with ⟨hra, ⟨m0, hm0, hdel⟩, hreg⟩
    have ha0 : a ≠ 0 := by
      intro hc
      subst hc
      exact hn ⟨hreg n.id hla, hd⟩
    refine ⟨by rw [hr']; exact hra, ?_, ?_⟩
    · refine ⟨m0, ?_, hdel⟩
      rw [hr']
      show nthNode (setNode _ a _) 0 = some m0
      rw [nthNode_setNode_ne _ _ _ _ ha0]
      exact hm0
    · intro i hla2
      rw [hr'] at hla2
      exact hreg i hla2
  · rw [hr']
    exact hq
  · exact processNode_rootflag fuel r n r' hpn hq

lemma delete_rootflag {r : RGA} {i : ID} (hi : i ≠ rootID) (hq : RootOK r) :
    RootOK (r.Delete i) := by
  rcases delete_cases r i with h | ⟨a, m, hla, hm, h⟩
  · rw [h]
    exact hq
  · rcases hq with ⟨hra, ⟨m0, hm0, hdel⟩, hreg⟩
    have ha0 : a ≠ 0 := by
      intro hc
      subst hc
      exact hi (hreg i hla)
    refine ⟨by rw [h]; exact hra, ?_, ?_⟩
    · refine ⟨m0, ?_, hdel⟩
      rw [h]
      show nthNode (setNode _ a _) 0 = some m0
      rw [nthNode_setNode_ne _ _ _ _ ha0]
      exact hm0
    · intro j hla2
      rw [h] at hla2
      exact hreg j hla2

/-- The states reachable without ever targeting the root sentinel for
deletion: `Insert` freely, `Delete` of non-root identifiers, and
`Merge` of batches carrying no tombstoned root snapshot. -/
inductive SafeReachable : RGA → Prop
  | new (nid : String) : SafeReachable (NewRGA nid)
  | insert {r : RGA} {v : Char} {p : ID} {fuel : Nat} {i : ID} {r' : RGA} :
      SafeReachable r → RGA.Insert r v p fuel = some (i, r') → SafeReachable r'
  | del {r : RGA} {i : ID} : SafeReachable r → i ≠ rootID →
      SafeReachable (r.Delete i)
  | merge {r : RGA} {ns : List Node} {fuel : Nat} {r' : RGA} :
      SafeReachable r → (∀ n ∈ ns, ¬ (n.id = rootID ∧ n.deleted = true)) →
      RGA.Merge r ns fuel = some r' → SafeReachable r'

lemma merge_rootflag : ∀ (ns : List Node) (r r' : RGA) (fuel : Nat),
    RGA.Merge r ns fuel = some r' →
    (∀ n ∈ ns, ¬ (n.id = rootID ∧ n.deleted = true)) → RootOK r → RootOK r' := by
  intro ns
  induction ns with
  | nil =>
    intro r r' fuel hm _ hq
    rw [Merge_nil] at hm
    exact (Option.some.inj hm) ▸ hq
  | cons n rest ih =>
    intro r r' fuel hm hres hq
    rw [Merge_cons] at hm
    cases hms : mergeStep r n fuel with
    | none => rw [hms] at hm; cases hm
    | some s =>
      rw [hms] at hm
      exact ih s r' fuel hm (fun q hq2 => hres q (List.mem_cons_of_mem _ hq2))
        (mergeStep_rootflag hms (hres n (List.mem_cons_self _ _)) hq)

/-- C7 (amended): the root sentinel's tombstone flag stays `false` on
every state reachable by `Insert`, `Delete` of identifiers other than
`(0, "root")`, and `Merge` of batches containing no tombstoned snapshot
bearing the root identifier.  (`Delete (0, "root")` itself does
tombstone the root — see the counterexample.) -/
theorem c7_root_never_tombstoned (r : RGA) (h : SafeReachable r) :
    ∃ m, nthNode r.heap r.rootAddr = some m ∧ m.deleted = false := by
  have hq : RootOK r := by
    induction h with
    | new nid =>
      refine ⟨rfl, ⟨⟨rootID, ⟨0, ""⟩, Char.ofNat 0, false, none⟩, rfl, rfl⟩, ?_⟩
      intro i hla
      simp only [NewRGA, lookupA] at hla
      by_cases hi : rootID = i
      · exact hi.symm
      · rw [if_neg hi] at hla
        cases hla
    | insert _ hs ih =>
      rcases insert_parts hs with ⟨_, hint⟩
      exact integrate_rootflag hint ⟨ih.1, ih.2.1, ih.2.2⟩
    | del _ hi ih => exact delete_rootflag hi ih
    | merge _ hres hm ih => exact merge_rootflag _ _ _ _ hm hres ih
  rcases hq with ⟨hra, ⟨m, hm, hdel⟩, _⟩
  exact ⟨m, by rw [hra]; exact hm, hdel⟩

/-- C7 witness: after an insert and a (non-root) delete the root is
still live. -/
theorem c7_root_never_tombstoned_witness :
    ∃ m, nthNode c10wit.heap c10wit.rootAddr = some m ∧ m.deleted = false := by
  have hins : RGA.Insert (NewRGA "alice") 'A' rootID 5 = some (⟨1, "alice"⟩, c10base) := by
    decide
  exact c7_root_never_tombstoned c10wit
    (SafeReachable.del (SafeReachable.insert (SafeReachable.new "alice") hins)
      (by decide))

/-! ### Tombstone merge lemmas (C5) -/

lemma Merge_singleton (r : RGA) (n : Node) (fuel : Nat) :
    RGA.Merge r [n] fuel = mergeStep r n fuel := by
  rw [Merge_cons]
  cases h : mergeStep r n fuel with
  | none => rfl
  | some s => exact Merge_nil s fuel

lemma setNode_eta : ∀ (h : List Node) (a : Nat) (m : Node),
    nthNode h a = some m → setNode h a m = h := by
  intro h
  induction h with
  | nil => intro a m hm; cases hm
  | cons q rest ih =>
    intro a m hm
    cases a with
    | zero =>
      have : q = m := Option.some.inj hm
      rw [show setNode (q :: rest) 0 m = m :: rest from rfl, this]
    | succ b =>
      have := ih b m (by simpa [nthNode] using hm)
      rw [show setNode (q :: rest) (b + 1) m = q :: setNode rest b m from rfl, this]

lemma visOf_cons (h : List Node) (a : Nat) (L : List Nat) :
    visOf h (a :: L)
      = (match nthNode h a with
         | none => []
         | some n => if n.deleted then [] else [n.value]) ++ visOf h L := by
  show List.filterMap _ (a :: L) = _
  rw [List.filterMap_cons]
  cases hn : nthNode h a with
  | none => rfl
  | some n =>
    cases hd : n.deleted with
    | true =>
      simp only [hd]
      exact rfl
    | false =>
      simp only [hd]
      exact rfl

lemma mergeStep_tombstone {r : RGA} {n : Node} {fuel : Nat} {a : Nat} {m : Node}
    (hla : lookupA r.registry n.id = some a) (hm : nthNode r.heap a = some m) :
    mergeStep r n fuel
      = some { r with heap := setNode r.heap a
                                { m with deleted := m.deleted || n.deleted } } := by
  cases hd : n.deleted with
  | true =>
    rw [Bool.or_true]
    simp [mergeStep, hla, hd, hm]
  | false =>
    rw [Bool.or_false]
    have h1 : mergeStep r n fuel = some r := by
      simp [mergeStep, hla, hd]
    rw [h1]
    have h2 : setNode r.heap a { m with deleted := m.deleted } = r.heap := by
      rw [show ({ m with deleted := m.deleted } : Node) = m from rfl]
      exact setNode_eta r.heap a m hm
    rw [h2]

lemma insert_total {r : RGA} {l : List Nat} (hw : WFon r l) (v : Char) (pid : ID)
    {fuel : Nat} (hf : l.length + 2 ≤ fuel) (hpar : lookupA r.registry pid ≠ none) :
    ∃ i r', RGA.Insert r v pid fuel = some (i, r') := by
  rcases integrate_complete (wfon_clock hw (r.clock + 1)) ⟨r.clock + 1, r.nodeID⟩
    pid v false hf hpar with ⟨r', hint⟩
  exact ⟨⟨r.clock + 1, r.nodeID⟩, r', by simp only [RGA.Insert, hint]⟩

/-- C5 (amended): processing a snapshot whose identifier is already
registered sets the local node's tombstone to the OR of its previous
flag and the snapshot's flag and changes nothing else; no library call
ever clears a tombstone; and merging a tombstone on a reachable state
deletes the registry-mapped node, removing its payload from the visible
value, and — when the replica holds a single copy of that identifier —
leaves every copy of the element tombstoned, while the identifier stays
addressable as an insertion parent.  (Unconditional disappearance fails
on duplicated states; see the counterexample.) -/
theorem c5_tombstone_monotonicity :
    (∀ (r : RGA) (n : Node) (fuel : Nat) (a : Nat) (m : Node),
      lookupA r.registry n.id = some a → nthNode r.heap a = some m →
      mergeStep r n fuel
        = some { r with heap := setNode r.heap a
                                  { m with deleted := m.deleted || n.deleted } }) ∧
    (∀ r r' : RGA, OneStep r r' → ∀ a m, nthNode r.heap a = some m →
      m.deleted = true → ∃ m', nthNode r'.heap a = some m' ∧ m'.deleted = true) ∧
    (∀ (r : RGA) (n : Node) (fuel : Nat) (a : Nat) (m : Node),
      Reachable r → lookupA r.registry n.id = some a → a ≠ r.rootAddr →
      nthNode r.heap a = some m → n.deleted = true →
      (∀ b m2, nthNode r.heap b = some m2 → m2.id = n.id → b = a) →
      RGA.Merge r [n] fuel
        = some { r with heap := setNode r.heap a { m with deleted := true } } ∧
      (∃ pre suf,
        r.valueChars = pre ++ (if m.deleted then [] else [m.value]) ++ suf ∧
        RGA.valueChars { r with heap := setNode r.heap a { m with deleted := true } }
          = pre ++ suf) ∧
      (∀ b m', nthNode (setNode r.heap a { m with deleted := true }) b = some m' →
        m'.id = n.id → m'.deleted = true) ∧
      (∀ (v : Char) (fuel2 : Nat), r.heap.length + 2 ≤ fuel2 →
        ∃ i r'',
          RGA.Insert { r with heap := setNode r.heap a { m with deleted := true } }
            v n.id fuel2 = some (i, r''))) := by
  refine ⟨fun r n fuel a m hla hm => mergeStep_tombstone hla hm, ?_, ?_⟩
  · intro r r' hstep a m hm hd
    rcases hstep with ⟨v, p, fuel, i, hins⟩ | ⟨i, hdel⟩ | ⟨ns, fuel, hm2⟩
    · rcases insert_parts hins with ⟨_, hint⟩
      rcases integrate_frame hint a m hm with ⟨m', hm', hc⟩
      refine ⟨m', hm', ?_⟩
      have : m'.deleted = m.deleted := by
        have := congrArg (fun t => t.2.2.2) hc
        simpa [nodeCore] using this
      rw [this, hd]
    · rcases delete_cases r i with h | ⟨b, m2, _, hm2, h⟩
      · rw [hdel, h]
        exact ⟨m, hm, hd⟩
      · rw [hdel, h]
        by_cases hab : b = a
        · subst hab
          refine ⟨{ m2 with deleted := true }, ?_, rfl⟩
          exact nthNode_setNode_self _ _ _ (nthNode_lt _ _ _ hm2)
        · rw [show ({ r with heap := setNode r.heap b { m2 with deleted := true } } :
              RGA).heap = setNode r.heap b { m2 with deleted := true } from rfl,
            nthNode_setNode_ne _ _ _ _ hab]
          exact ⟨m, hm, hd⟩
    · rcases merge_deleted hm2 a m hm with ⟨m', hm', hd'⟩
      exact ⟨m', hm', hd' hd⟩
  · intro r n fuel a m hreach hla hanr hm hd huniq
    have heq : RGA.Merge r [n] fuel
        = some { r with heap := setNode r.heap a { m with deleted := true } } := by
      rw [Merge_singleton, mergeStep_tombstone hla hm, hd, Bool.or_true]
    rcases reach_wf hreach with ⟨l, hw⟩
    have hal : a ∈ l := by
      rcases List.mem_cons.mp (hw.reg n.id a hla) with h5 | h5
      · exact absurd h5 hanr
      · exact h5
    rcases List.append_of_mem hal with ⟨l1, l2, hldec⟩
    have hnd : (l1 ++ a :: l2).Nodup := by
      have := hw.nodup
      rw [List.nodup_cons] at this
      exact hldec ▸ this.2
    have hnotmem : a ∉ l1 ++ l2 := by
      have := hnd
      rw [List.nodup_middle, List.nodup_cons] at this
      exact this.1
    have halt : a < r.heap.length :=
      wfon_mem_lt hw a (List.mem_cons_of_mem _ hal)
    have hw' : WFon { r with heap := setNode r.heap a { m with deleted := true } } l :=
      wfon_set_deleted hw a m hm
    refine ⟨heq, ?_, ?_, ?_⟩
    · refine ⟨visOf r.heap l1, visOf r.heap l2, ?_, ?_⟩
      · rw [valueChars_eq hw, hldec, visOf_append, visOf_cons, hm,
          ← List.append_assoc]
      · rw [valueChars_eq hw', hldec, visOf_append, visOf_cons]
        have hframe : ∀ b, b ≠ a →
            (nthNode (setNode r.heap a { m with deleted := true }) b).map nodeCore
              = (nthNode r.heap b).map nodeCore := by
          intro b hb
          rw [nthNode_setNode_ne _ _ _ _ (fun hc => hb hc.symm)]
        have h1 : visOf (setNode r.heap a { m with deleted := true }) l1
            = visOf r.heap l1 := by
          refine visOf_frame (fun b hb => hframe b ?_)
          intro hc
          exact hnotmem (hc ▸ List.mem_append_left _ hb)
        have h2 : visOf (setNode r.heap a { m with deleted := true }) l2
            = visOf r.heap l2 := by
          refine visOf_frame (fun b hb => hframe b ?_)
          intro hc
          exact hnotmem (hc ▸ List.mem_append_right _ hb)
        have h3 : nthNode (setNode r.heap a { m with deleted := true }) a
            = some { m with deleted := true } := nthNode_setNode_self _ _ _ halt
        rw [show ({ r with heap := setNode r.heap a { m with deleted := true } } :
            RGA).heap = setNode r.heap a { m with deleted := true } from rfl]
        rw [h1, h2, h3]
        rfl
    · intro b m' hb hid
      by_cases hab : b = a
      · subst hab
        rw [nthNode_setNode_self _ _ _ halt] at hb
        rw [← Option.some.inj hb]
      · rw [nthNode_setNode_ne _ _ _ _ (fun hc => hab hc.symm)] at hb
        exact absurd (huniq b m' hb hid) hab
    · intro v fuel2 hf2
      have hlen : l.length + 2 ≤ fuel2 := by
        have h1 := nodup_length_le (r.rootAddr :: l) r.heap.length hw.nodup
          (wfon_mem_lt hw)
        simp at h1
        omega
      have hpar : lookupA r.registry n.id ≠ none := by
        rw [hla]
        exact Option.some_ne_none a
      exact insert_total hw' v n.id hlen hpar

/-- The state of `c10base` after its single element is tombstoned in
place. -/
def c5del : RGA :=
  { c10base with
      heap := setNode c10base.heap 1 ⟨⟨1, "alice"⟩, rootID, 'A', true, none⟩ }

/-- C5 witness: on the one-element document "A", merging a tombstoned
copy of the element succeeds, removes the character from the visible
value, and leaves the identifier usable as an insertion parent. -/
theorem c5_tombstone_monotonicity_witness :
    RGA.Merge c10base [⟨⟨1, "alice"⟩, rootID, 'A', true, none⟩] 5 = some c5del ∧
    (∃ pre suf,
      c10base.valueChars = pre ++ ['A'] ++ suf ∧
      c5del.valueChars = pre ++ suf) ∧
    (∃ i r'', RGA.Insert c5del 'B' ⟨1, "alice"⟩ 5 = some (i, r'')) := by
  have hins : RGA.Insert (NewRGA "alice") 'A' rootID 5
      = some (⟨1, "alice"⟩, c10base) := by decide
  have hreach : Reachable c10base :=
    Reachable.insert (Reachable.new "alice") hins
  have huniq : ∀ b m2, nthNode c10base.heap b = some m2 →
      m2.id = (⟨1, "alice"⟩ : ID) → b = 1 := by
    intro b m2 hb hid
    match b, hb with
    | 0, hb =>
      rw [← Option.some.inj hb] at hid
      exact absurd hid (by decide)
    | 1, _ => rfl
    | (k + 2), hb => exact Option.noConfusion hb
  have h := c5_tombstone_monotonicity.2.2 c10base
    ⟨⟨1, "alice"⟩, rootID, 'A', true, none⟩ 5 1
    ⟨⟨1, "alice"⟩, rootID, 'A', false, none⟩
    hreach (by decide) (by decide) (by decide) rfl huniq
  exact ⟨h.1, h.2.1, h.2.2.2 'B' 5 (by decide)⟩

lemma wfon_buffer {r : RGA} {l : List Nat} (hw : WFon r l) (n : Node) :
    WFon { r with pendingOrphans := setA r.pendingOrphans n.parentID
                    (((lookupA r.pendingOrphans n.parentID).getD []) ++ [n]) } l := by
  refine ⟨hw.rooted, hw.nodup, hw.reg, hw.parents, ?_⟩
  intro k ns hla s hsmem
  by_cases hk : n.parentID = k
  · subst hk
    rw [lookupA_setA_self] at hla
    have hns : ns = ((lookupA r.pendingOrphans n.parentID).getD []) ++ [n] :=
      (Option.some.inj hla).symm
    rw [hns] at hsmem
    rcases List.mem_append.mp hsmem with h5 | h5
    · cases hold : lookupA r.pendingOrphans n.parentID with
      | none => rw [hold] at h5; simp at h5
      | some os =>
        rw [hold] at h5
        exact hw.orphans _ os hold s h5
    · rw [List.mem_singleton.mp h5]
  · rw [lookupA_setA_ne _ _ _ _ hk] at hla
    exact hw.orphans k ns hla s hsmem

lemma nodup_middle_eq {α : Type} {x : α} :
    ∀ {A : List α} {B : List α} {C D : List α}, A ++ x :: B = C ++ x :: D →
      (A ++ x :: B).Nodup → A = C ∧ B = D := by
  intro A
  induction A with
  | nil =>
    intro B C D h hnd
    cases C with
    | nil =>
      simp at h
      exact ⟨rfl, h⟩
    | cons c C' =>
      simp at h
      rcases h with ⟨h1, h2⟩
      exfalso
      rw [List.nil_append, List.nodup_cons] at hnd
      exact hnd.1 (h2 ▸ List.mem_append_right _ (List.mem_cons_self _ _))
  | cons a A' ih =>
    intro B C D h hnd
    cases C with
    | nil =>
      simp at h
      rcases h with ⟨h1, h2⟩
      exfalso
      rw [List.cons_append, List.nodup_cons] at hnd
      exact hnd.1 (h1 ▸ List.mem_append_right _ (List.mem_cons_self _ _))
    | cons c C' =>
      simp only [List.cons_append, List.cons.injEq] at h
      rcases h with ⟨h1, h2⟩
      rw [List.cons_append, List.nodup_cons] at hnd
      rcases ih h2 hnd.2 with ⟨hAC, hBD⟩
      exact ⟨by rw [h1, hAC], hBD⟩

lemma processNode_buffer {r : RGA} {n : Node} (fuel : Nat)
    (hpar : lookupA r.registry n.parentID = none) :
    processNode (fuel + 1) r n
      = some { r with pendingOrphans := setA r.pendingOrphans n.parentID
                        (((lookupA r.pendingOrphans n.parentID).getD []) ++ [n]) } := by
  simp only [processNode, hpar]

lemma processNode_integrate {r : RGA} {n : Node} {fuel : Nat} {pa : Nat} {r1 : RGA}
    (hpar : lookupA r.registry n.parentID = some pa)
    (hint : integrate r n.id n.parentID n.value n.deleted (fuel + 1) = some r1)
    (horph : lookupA r1.pendingOrphans n.id = none) :
    processNode (fuel + 1) r n = some r1 := by
  simp only [processNode, hpar, hint, horph]

lemma processNode_drain {r : RGA} {n : Node} {fuel : Nat} {pa : Nat} {r1 : RGA}
    {orphans : List Node} {r2 : RGA}
    (hpar : lookupA r.registry n.parentID = some pa)
    (hint : integrate r n.id n.parentID n.value n.deleted (fuel + 1) = some r1)
    (horph : lookupA r1.pendingOrphans n.id = some orphans)
    (hpm : processMany fuel r1 orphans = some r2) :
    processNode (fuel + 1) r n
      = some { r2 with pendingOrphans := eraseA r2.pendingOrphans n.id } := by
  simp only [processNode, hpar, hint, horph]
  rw [processMany_foldl, hpm]

lemma mergeStep_new {r : RGA} {n : Node} {fuel : Nat}
    (hid : lookupA r.registry n.id = none) :
    mergeStep r n fuel = processNode fuel r n := by
  simp only [mergeStep, hid]

/-- C4: causal buffering.  On any reachable replica, merging a child
snapshot whose parent is unknown changes nothing visible and stores the
child in the orphan buffer; merging the parent afterwards (or both in
one batch) integrates parent and child, and the visible value gains the
parent's payload immediately followed by the child's at one position.
Moreover no library call ever drops a buffered snapshot: it either
stays buffered under its key or its identifier has been registered. -/
theorem c4_causal_buffering :
    (∀ (r : RGA) (c p : Node) (fuel : Nat), Reachable r →
      lookupA r.registry c.id = none →
      lookupA r.registry c.parentID = none →
      lookupA r.pendingOrphans c.parentID = none →
      lookupA r.pendingOrphans c.id = none →
      c.id ≠ c.parentID →
      p.id = c.parentID →
      lookupA r.registry p.parentID ≠ none →
      c.deleted = false → p.deleted = false →
      r.heap.length + 5 ≤ fuel →
      ∃ r1 r2,
        RGA.Merge r [c] fuel = some r1 ∧
        r1.valueChars = r.valueChars ∧
        orphMem r1 c.parentID c ∧
        RGA.Merge r1 [p] fuel = some r2 ∧
        RGA.Merge r [c, p] fuel = some r2 ∧
        (∃ pre suf, r1.valueChars = pre ++ suf ∧
          r2.valueChars = pre ++ p.value :: c.value :: suf)) ∧
    (∀ r r', Reachable r → OneStep r r' →
      ∀ k s, orphMem r k s → orphMem r' k s ∨ lookupA r'.registry s.id ≠ none) := by
  constructor
  · intro r c p fuel hreach hcid hcpar hcbuf hcwait hne hpid hppar hcdel hpdel hfuel
    rcases reach_wf hreach with ⟨l, hw⟩
    obtain ⟨f2, rfl⟩ : ∃ f2, fuel = f2 + 2 := ⟨fuel - 2, by omega⟩
    have hllen : l.length + 1 ≤ r.heap.length := by
      have h := nodup_length_le (r.rootAddr :: l) r.heap.length hw.nodup (wfon_mem_lt hw)
      simpa using h
    have hmemlt : ∀ a ∈ l, a < r.heap.length :=
      fun a ha => wfon_mem_lt hw a (List.mem_cons_of_mem _ ha)
    have holist : ((lookupA r.pendingOrphans c.parentID).getD []) ++ [c] = [c] := by
      rw [hcbuf]
      rfl
    have hw1 : WFon { r with pendingOrphans := setA r.pendingOrphans c.parentID [c] } l := by
      have h := wfon_buffer hw c
      rw [holist] at h
      exact h
    have hmerge1 : RGA.Merge r [c] (f2 + 2)
        = some { r with pendingOrphans := setA r.pendingOrphans c.parentID [c] } := by
      rw [Merge_singleton, mergeStep_new hcid]
      have hb := processNode_buffer (f2 + 1) hcpar
      rw [holist] at hb
      exact hb
    -- the parent integrates
    have hppar1 : lookupA ({ r with pendingOrphans := setA r.pendingOrphans c.parentID [c] } : RGA).registry p.parentID ≠ none := hppar
    have hfp : l.length + 2 ≤ f2 + 2 := by omega
    rcases integrate_complete hw1 p.id p.parentID p.value false hfp hppar1 with ⟨rp, hintp⟩
    rcases integrate_core hw1 hintp with
      ⟨pa, pnode, prev, cur, W, L2, l', hla, hpn, hscan, hWL, hWlast, hWl', hch, hwp,
       hproot, hpnid, hpreg, hporph, hpclock, hplen, hpnew, hpframe⟩
    have hplen' : rp.heap.length = r.heap.length + 1 := hplen
    have hpnew' : nthNode rp.heap r.heap.length
        = some ⟨p.id, p.parentID, p.value, false, cur⟩ := hpnew
    -- the head of W is the root address
    have hWne : W ≠ [] := by
      intro h
      rw [h] at hWlast
      exact Option.noConfusion hWlast
    obtain ⟨w0, Wt, rfl⟩ : ∃ w0 Wt, W = w0 :: Wt := by
      cases W with
      | nil => exact absurd rfl hWne
      | cons a b => exact ⟨a, b, rfl⟩
    have hWL' : r.rootAddr :: l = w0 :: (Wt ++ L2) := hWL
    obtain ⟨hw0, hlWt⟩ : r.rootAddr = w0 ∧ l = Wt ++ L2 := by
      rw [List.cons.injEq] at hWL'
      exact hWL'
    subst hw0
    have hWl'2 : r.rootAddr :: l' = r.rootAddr :: (Wt ++ r.heap.length :: L2) := hWl'
    have hl'dec : l' = Wt ++ r.heap.length :: L2 := by
      rw [List.cons.injEq] at hWl'2
      exact hWl'2.2
    have hl'len : l'.length = l.length + 1 := by
      rw [hl'dec, hlWt]
      simp
      omega
    -- the buffered child is found and drained
    have hdrlook : lookupA rp.pendingOrphans p.id = some [c] := by
      rw [hporph]
      show lookupA (setA r.pendingOrphans c.parentID [c]) p.id = some [c]
      rw [hpid]
      exact lookupA_setA_self _ _ _
    have hcpar_rp : lookupA rp.registry c.parentID = some r.heap.length := by
      rw [hpreg]
      show lookupA (setA r.registry p.id r.heap.length) c.parentID = some r.heap.length
      rw [← hpid]
      exact lookupA_setA_self _ _ _
    -- the child integrates
    have hfc : l'.length + 2 ≤ f2 + 1 := by omega
    rcases integrate_complete hwp c.id c.parentID c.value false hfc
      (by rw [hcpar_rp]; exact Option.some_ne_none _) with ⟨rc, hintc⟩
    rcases integrate_core hwp hintc with
      ⟨pa2, pnode2, prev2, cur2, W2, L22, l'', hla2, hpn2, hscan2, hWL2, hW2last, hWl'',
       hch2, hwc, hcroot, hcnid, hcreg, hcorph, hcclock, hclen, hcnew, hcframe⟩
    have hpa2 : pa2 = r.heap.length := by
      rw [hcpar_rp] at hla2
      exact (Option.some.inj hla2).symm
    subst hpa2
    have hpnode2eq : pnode2 = ⟨p.id, p.parentID, p.value, false, cur⟩ := by
      have h := hpn2
      rw [hpnew'] at h
      exact (Option.some.inj h).symm
    -- the sibling scan of the child stops immediately after its parent
    have hcurcase : cur = none ∨ ∃ b bn, cur = some b ∧ nthNode rp.heap b = some bn ∧
        bn.parentID ≠ c.parentID := by
      cases hL2c : L2 with
      | nil =>
        left
        rw [hL2c] at hch
        exact chainFrom_nil_inv hch
      | cons b L2' =>
        right
        rw [hL2c] at hch
        rcases chainFrom_cons_inv hch with ⟨hcurb, bn0, hbn0, hch3⟩
        have hbl : b ∈ l := by
          rw [hlWt, hL2c]
          exact List.mem_append_right _ (List.mem_cons_self _ _)
        have hbn0' : nthNode r.heap b = some bn0 := hbn0
        have hbreg := hw.parents b hbl bn0 hbn0'
        have hbne : bn0.parentID ≠ c.parentID := by
          intro hc
          exact hbreg (by rw [hc]; exact hcpar)
        have h1 := hpframe b (hmemlt b hbl)
        rw [hbn0] at h1
        cases hx : nthNode rp.heap b with
        | none => rw [hx] at h1; exact Option.noConfusion h1
        | some bn =>
          rw [hx] at h1
          have hcoreb := Option.some.inj h1
          refine ⟨b, bn, hcurb, hx, ?_⟩
          have hpb : bn.parentID = bn0.parentID := by
            have h2 := congrArg (fun t => t.2.1) hcoreb
            simpa [nodeCore] using h2
          rw [hpb]
          exact hbne
    have hex : scanLoop rp.heap c.parentID c.id (f2 + 1) r.heap.length cur
        = some (r.heap.length, cur) := scanLoop_exit_now (by omega) hcurcase
    have hsc2 : scanLoop rp.heap c.parentID c.id (f2 + 1) r.heap.length cur
        = some (prev2, cur2) := by
      rw [hpnode2eq] at hscan2
      exact hscan2
    have hpc : (r.heap.length, cur) = (prev2, cur2) := by
      rw [hex] at hsc2
      exact Option.some.inj hsc2
    have hprev2 : prev2 = r.heap.length := (congrArg Prod.fst hpc).symm
    have hcur2 : cur2 = cur := (congrArg Prod.snd hpc).symm
    subst hprev2
    -- identify the splice point of the child with the freshly added parent
    have hW2ne : W2 ≠ [] := by
      intro h
      rw [h] at hW2last
      exact Option.noConfusion hW2last
    have hW2eq : W2 = W2.dropLast ++ [r.heap.length] := by
      have h1 := List.dropLast_append_getLast hW2ne
      have h2 : W2.getLast hW2ne = r.heap.length := by
        rw [List.getLast?_eq_getLast W2 hW2ne] at hW2last
        exact Option.some.inj hW2last
      rw [← h2]
      exact h1.symm
    have hWL2' : r.rootAddr :: l' = W2.dropLast ++ r.heap.length :: L22 := by
      have h := hWL2
      rw [hproot] at h
      rw [hW2eq, ← List.append_cons] at h
      exact h
    have hnd' : (r.rootAddr :: l').Nodup := by
      have h := hwp.nodup
      rw [hproot] at h
      exact h
    have hndform : (W2.dropLast ++ r.heap.length :: L22).Nodup := by
      rw [← hWL2']
      exact hnd'
    have hcomb : W2.dropLast ++ r.heap.length :: L22
        = (r.rootAddr :: Wt) ++ r.heap.length :: L2 := by
      rw [← hWL2']
      exact hWl'2
    obtain ⟨hXW, hL22⟩ := nodup_middle_eq hcomb hndform
    -- the final chain: root, prefix, parent, child, suffix
    have hl''dec : l'' = Wt ++ r.heap.length :: (r.heap.length + 1) :: L2 := by
      have h := hWl''
      rw [hproot] at h
      rw [hW2eq, hXW, hplen', hL22] at h
      have h3 : r.rootAddr :: l''
          = ((r.rootAddr :: Wt) ++ [r.heap.length]) ++ (r.heap.length + 1) :: L2 := h
      have h2 : r.rootAddr :: l''
          = r.rootAddr :: (Wt ++ r.heap.length :: (r.heap.length + 1) :: L2) := by
        rw [h3]
        simp
      rw [List.cons.injEq] at h2
      exact h2.2
    -- the two new nodes are visible
    have hcnew' : nthNode rc.heap (r.heap.length + 1)
        = some ⟨c.id, c.parentID, c.value, false, cur⟩ := by
      have h := hcnew
      rw [hplen', hcur2] at h
      exact h
    have hNc : ∃ mN, nthNode rc.heap r.heap.length = some mN ∧
        nodeCore mN = nodeCore (⟨p.id, p.parentID, p.value, false, cur⟩ : Node) := by
      have h := hcframe r.heap.length (by omega)
      rw [hpnew'] at h
      cases hx : nthNode rc.heap r.heap.length with
      | none => rw [hx] at h; exact Option.noConfusion h
      | some mN => rw [hx] at h; exact ⟨mN, rfl, Option.some.inj h⟩
    obtain ⟨mN, hmN, hmNcore⟩ := hNc
    have hmNdel : mN.deleted = false := by
      have h := congrArg (fun t => t.2.2.2) hmNcore
      simpa [nodeCore] using h
    have hmNval : mN.value = p.value := by
      have h := congrArg (fun t => t.2.2.1) hmNcore
      simpa [nodeCore] using h
    have hheadN : (match nthNode rc.heap r.heap.length with
        | none => []
        | some n => if n.deleted then [] else [n.value]) = [p.value] := by
      rw [hmN]
      show (if mN.deleted then [] else [mN.value]) = [p.value]
      rw [hmNdel, hmNval]
      rfl
    have hheadN1 : (match nthNode rc.heap (r.heap.length + 1) with
        | none => []
        | some n => if n.deleted then [] else [n.value]) = [c.value] := by
      rw [hcnew']
      rfl
    -- old addresses keep their visible contribution
    have hframe2 : ∀ a, a < r.heap.length →
        (nthNode rc.heap a).map nodeCore = (nthNode r.heap a).map nodeCore := by
      intro a ha
      have h1 := hcframe a (by omega)
      have h2 := hpframe a ha
      exact h1.trans h2
    have hpre : visOf rc.heap Wt = visOf r.heap Wt :=
      visOf_frame (fun a ha =>
        hframe2 a (hmemlt a (by rw [hlWt]; exact List.mem_append_left _ ha)))
    have hsuf : visOf rc.heap L2 = visOf r.heap L2 :=
      visOf_frame (fun a ha =>
        hframe2 a (hmemlt a (by rw [hlWt]; exact List.mem_append_right _ ha)))
    -- assemble the merge equations
    have hintc' : integrate rp c.id c.parentID c.value c.deleted (f2 + 1) = some rc := by
      rw [hcdel]
      exact hintc
    have hrc_orph : lookupA rc.pendingOrphans c.id = none := by
      rw [hcorph, hporph]
      show lookupA (setA r.pendingOrphans c.parentID [c]) c.id = none
      rw [lookupA_setA_ne _ _ _ _ (fun h => hne h.symm)]
      exact hcwait
    have hproc_c : processNode (f2 + 1) rp c = some rc :=
      processNode_integrate hcpar_rp hintc' hrc_orph
    have hpm : processMany (f2 + 1) rp [c] = some rc := by
      rw [processMany_cons, hproc_c]
      rfl
    have hintp' : integrate { r with pendingOrphans := setA r.pendingOrphans c.parentID [c] } p.id p.parentID p.value p.deleted (f2 + 2) = some rp := by
      rw [hpdel]
      exact hintp
    have hproc_p : processNode (f2 + 2) { r with pendingOrphans := setA r.pendingOrphans c.parentID [c] } p = some { rc with pendingOrphans := eraseA rc.pendingOrphans p.id } :=
      processNode_drain hla hintp' hdrlook hpm
    have hpid1 : lookupA ({ r with pendingOrphans := setA r.pendingOrphans c.parentID [c] } : RGA).registry p.id = none := by
      show lookupA r.registry p.id = none
      rw [hpid]
      exact hcpar
    have hmerge2 : RGA.Merge { r with pendingOrphans := setA r.pendingOrphans c.parentID [c] } [p] (f2 + 2) = some { rc with pendingOrphans := eraseA rc.pendingOrphans p.id } := by
      rw [Merge_singleton, mergeStep_new hpid1]
      exact hproc_p
    have hmergecp : RGA.Merge r [c, p] (f2 + 2)
        = some { rc with pendingOrphans := eraseA rc.pendingOrphans p.id } := by
      rw [Merge_cons]
      have hms1 : mergeStep r c (f2 + 2)
          = some { r with pendingOrphans := setA r.pendingOrphans c.parentID [c] } := by
        rw [← Merge_singleton]
        exact hmerge1
      rw [hms1]
      exact hmerge2
    refine ⟨{ r with pendingOrphans := setA r.pendingOrphans c.parentID [c] },
      { rc with pendingOrphans := eraseA rc.pendingOrphans p.id },
      hmerge1, rfl, ⟨[c], lookupA_setA_self _ _ _, List.mem_singleton.mpr rfl⟩,
      hmerge2, hmergecp, visOf r.heap Wt, visOf r.heap L2, ?_, ?_⟩
    · show r.valueChars = _
      rw [valueChars_eq hw, hlWt, visOf_append]
    · show rc.valueChars = _
      rw [valueChars_eq hwc, hl''dec, visOf_append, visOf_cons, visOf_cons,
        hheadN, hheadN1, hpre, hsuf]
      rfl
  · intro r r' hreach hstep k s hmem
    rcases hstep with ⟨v, pp, fuel, i, hins⟩ | ⟨i, hdel⟩ | ⟨ns, fuel, hm⟩
    · left
      rcases insert_parts hins with ⟨_, hint⟩
      rcases hmem with ⟨ns0, hla, hmem0⟩
      refine ⟨ns0, ?_, hmem0⟩
      rw [(integrate_simple_parts hint).2.2.2.1]
      exact hla
    · left
      rcases delete_cases r i with h | ⟨a, m, _, hm2, h⟩
      · rw [hdel, h]
        exact hmem
      · rw [hdel, h]
        rcases hmem with ⟨ns0, hla, hmem0⟩
        exact ⟨ns0, hla, hmem0⟩
    · exact merge_orphan_forward hm (reach_wf hreach) k s hmem

/-- C4 witness: on a fresh replica, delivering the child snapshot
before its parent buffers it invisibly, and delivering the parent then
yields the value "PC", evaluated at concrete inputs. -/
theorem c4_causal_buffering_witness :
    ∃ r1 r2,
      RGA.Merge (NewRGA "w4") [⟨⟨2, "x"⟩, ⟨1, "x"⟩, 'C', false, none⟩] 6 = some r1 ∧
      r1.valueChars = (NewRGA "w4").valueChars ∧
      orphMem r1 ⟨1, "x"⟩ ⟨⟨2, "x"⟩, ⟨1, "x"⟩, 'C', false, none⟩ ∧
      RGA.Merge r1 [⟨⟨1, "x"⟩, rootID, 'P', false, none⟩] 6 = some r2 ∧
      RGA.Merge (NewRGA "w4") [⟨⟨2, "x"⟩, ⟨1, "x"⟩, 'C', false, none⟩,
        ⟨⟨1, "x"⟩, rootID, 'P', false, none⟩] 6 = some r2 ∧
      (∃ pre suf, r1.valueChars = pre ++ suf ∧
        r2.valueChars = pre ++ 'P' :: 'C' :: suf) :=
  c4_causal_buffering.1 (NewRGA "w4") ⟨⟨2, "x"⟩, ⟨1, "x"⟩, 'C', false, none⟩
    ⟨⟨1, "x"⟩, rootID, 'P', false, none⟩ 6 (Reachable.new "w4")
    (by decide) (by decide) (by decide) (by decide) (by decide) rfl (by decide)
    rfl rfl (by decide)
